import Mathlib

/-! Verification of `getOpts` and `toCurrency` (src/utils.h)

A shallow embedding of the option-specification compiler and of the token
classifier of `getOpts`, and of `toCurrency`, followed by theorems about them.

Modelling conventions

* `std::string` is a list of characters (`Str`); a `char` is a `Char`.
* `std::map<K, V>` is a partial function `K → Option V`; `m[k] = v` is a
  pointwise update.  An entry holding `NULL` and an absent entry are both
  `none` (the source only ever compares `validOpts[...]` against `NULL`).
* `vArgs*` is an address (`Nat`) into a heap of `VArgs` records, so that the
  aliases of one definition share one mutable record, as in the source.
* `int` is `Int`; `atoi` follows the C library (glibc: `strtol` saturated to
  `long`, then truncated to 32 bits).
* The token loop moves an iterator forward by a varying number of tokens per
  iteration, so it is run with a fuel counter; `getOpts` supplies one unit of
  fuel per token and `getOpts_terminates` shows that this always suffices.
* Dereferencing `tokens.end()` (the read `*(it + 1)` in the condition of the
  optional-argument loop) has no defined value: the run ends in
  `Result.outOfBounds`, which records `*opts` and `*params` at that point.
* The format string is a C string and the tokens are `std::string`s; the clean-up
  of the records before the final `return ""` (lines 177-186) has no effect on
  the returned string or on the two containers and is not modelled.
-/

namespace Utils

/-- The model of `std::string`. -/
abbrev Str := List Char

/-- Model of `struct paramStruct` (`vArgs`). -/
structure VArgs where
  required : Int
  optional : Int
  key : Str
  deriving DecidableEq, Repr

/-- Model of `std::map<std::string, std::string>` (`*opts`). -/
abbrev Opts := Str → Option Str

/-- The empty options map. -/
def Opts.empty : Opts := fun _ => none

/-- Assignment `m[k] = v`. -/
def Opts.set (m : Opts) (k : Str) (v : Str) : Opts :=
  fun k' => if k' = k then some v else m k'

/-- Append `m[k] += v`; `operator[]` creates an empty string when `k` is absent. -/
def Opts.append (m : Opts) (k : Str) (v : Str) : Opts :=
  m.set k ((m k).getD [] ++ v)

/-! ## The specification compiler (utils.h lines 63-132) -/

/-- Whitespace as seen by `operator>>` and by `atoi` (`isspace`, "C" locale). -/
def isSpace (c : Char) : Bool :=
  c = ' ' || c = '\t' || c = '\n' || c = '\x0b' || c = '\x0c' || c = '\r'

/-- Reading with `std::istream_iterator<std::string>`: the accumulator `cur` is the
word being read. -/
def wordsAux : List Char → Str → List Str
  | [], cur => if cur = [] then [] else [cur]
  | c :: cs, cur =>
    if isSpace c then
      if cur = [] then wordsAux cs [] else cur :: wordsAux cs []
    else wordsAux cs (cur ++ [c])

/-- The vector `v` of whitespace-separated definitions of the format string. -/
def words (s : Str) : List Str := wordsAux s []

/-- Value of a decimal digit character. -/
def digitVal (c : Char) : Nat := c.toNat - 48

/-- Saturation of `strtol` to the range of a 64-bit `long`. -/
def clampLong (v : Int) : Int :=
  if v < -(2 ^ 63) then -(2 ^ 63) else if 2 ^ 63 - 1 < v then 2 ^ 63 - 1 else v

/-- Conversion of a `long` to a 32-bit `int`. -/
def toInt32 (v : Int) : Int := (v + 2 ^ 31) % 2 ^ 32 - 2 ^ 31

/-- The optional sign read by `atoi`: whether it is a minus, and the text after it. -/
def atoiSign : Str → Bool × Str
  | [] => (false, [])
  | c :: r => if c = '-' then (true, r) else if c = '+' then (false, r) else (false, c :: r)

/-- The C library function `atoi`: leading whitespace, an optional sign, then the
longest run of decimal digits. -/
def atoi (s : Str) : Int :=
  let body := atoiSign (s.dropWhile isSpace)
  let n : Nat := (body.2.takeWhile Char.isDigit).foldl (fun a c => 10 * a + digitVal c) 0
  toInt32 (clampLong (if body.1 then -(n : Int) else (n : Int)))

/-- Model of `std::map<std::string, vArgs*> validOpts` together with the records
allocated by `new vArgs`: `heap` gives the record at an address, `next` is the
next free address, `map` sends an alias to the address of its record. -/
structure Table where
  next : Nat
  heap : Nat → VArgs
  map : Str → Option Nat

/-- The table before the first definition is read. -/
def Table.empty : Table := ⟨0, fun _ => ⟨0, 0, []⟩, fun _ => none⟩

/-- Lookup `validOpts[tok]` followed by a dereference; `none` stands for `NULL`. -/
def Table.lookup (t : Table) (tok : Str) : Option VArgs := (t.map tok).map t.heap

/-- Assignment `validOpts[hash] = va`, `va` being the address `p`. -/
def Table.bind (t : Table) (hash : Str) (p : Nat) : Table :=
  { t with map := fun k => if k = hash then some p else t.map k }

/-- Update of the record at address `p`. -/
def Table.modify (t : Table) (p : Nat) (f : VArgs → VArgs) : Table :=
  { t with heap := fun q => if q = p then f (t.heap q) else t.heap q }

/-- Statement `if (va->key == "") va->key = hash;`. -/
def Table.setKeyIfEmpty (t : Table) (p : Nat) (hash : Str) : Table :=
  if (t.heap p).key = [] then t.modify p (fun v => { v with key := hash }) else t

/-- Registration of the alias `hash` for the record at `p`, as at a comma
(lines 84-87) and at the end of a definition (lines 116-119). -/
def Table.register (t : Table) (p : Nat) (hash : Str) : Table :=
  (t.bind hash p).setKeyIfEmpty p hash

/-- The `switch (mode)` executed at a colon (lines 92-105). -/
def atColon (p : Nat) (mode : Nat) (hash : Str) (t : Table) : Table :=
  match mode with
  | 0 => (t.setKeyIfEmpty p hash).bind hash p
  | 1 => t.modify p (fun v => { v with required := atoi hash })
  | _ => t.modify p (fun v => { v with optional := atoi hash })

/-- The `switch (mode)` executed at the last character of a definition
(lines 114-127). -/
def atEnd (p : Nat) (mode : Nat) (hash : Str) (t : Table) : Table :=
  match mode with
  | 0 => t.register p hash
  | 1 => t.modify p (fun v => { v with required := atoi hash })
  | _ => t.modify p (fun v => { v with optional := atoi hash })

/-- The inner `for` loop over the characters of one definition (lines 80-131);
`p` is the address held by `va`, the list is the part of the definition from
index `i` on, so that `i + 1 == length` holds exactly when the tail is empty. -/
def scanDef (p : Nat) : List Char → Nat → Str → Table → Table
  | [], _, _, t => t
  | c :: cs, mode, hash, t =>
    if c = ',' then
      scanDef p cs mode [] (t.register p hash)
    else if c = ':' then
      scanDef p cs (mode + 1) [] (atColon p mode hash t)
    else
      scanDef p cs mode (hash ++ [c])
        (if cs = [] then atEnd p mode (hash ++ [c]) t else t)

/-- One iteration of the outer loop (lines 69-132): allocate and initialise a
record, then scan the definition. -/
def compileDef (t : Table) (d : Str) : Table :=
  scanDef t.next d 0 []
    { next := t.next + 1
      heap := fun q => if q = t.next then ⟨0, 0, []⟩ else t.heap q
      map := t.map }

/-- The table built from the format string `valids`. -/
def compile (valids : Str) : Table := (words valids).foldl compileDef Table.empty

/-! ## The token classifier (utils.h lines 134-190) -/

/-- The part of the state of the token loop that outlives an iteration: the two
output containers and the local `endOfArgs`. -/
structure St where
  opts : Opts
  params : List Str
  endOfArgs : Bool

/-- How a call of `getOpts` ends. -/
inductive Result where
  /-- A `return` statement was executed with the given string. -/
  | returned (msg : Str) (opts : Opts) (params : List Str)
  /-- The read `*(it + 1)` was evaluated with `it + 1 == tokens.end()`. -/
  | outOfBounds (opts : Opts) (params : List Str)

/-- The returned string, when there is one. -/
def Result.msg? : Result → Option Str
  | .returned m _ _ => some m
  | .outOfBounds _ _ => none

/-- Contents of `*opts` when the run ends. -/
def Result.opts : Result → Opts
  | .returned _ o _ => o
  | .outOfBounds o _ => o

/-- Contents of `*params` when the run ends. -/
def Result.params : Result → List Str
  | .returned _ _ p => p
  | .outOfBounds _ p => p

/-- The string returned for an unrecognized dash token (line 142). -/
def invalidOptionMsg (tok : Str) : Str :=
  "invalid option -- \"".toList ++ tok ++ "\"".toList

/-- The string returned when a required argument is missing (line 161). -/
def missingArgMsg (tok : Str) : Str := tok ++ " requires an argument".toList

/-- The literal `"--"`. -/
def dashDash : Str := ['-', '-']

/-- Outcome of the `while (req > 0)` loop (lines 159-165): either the `return`
of line 161, or the token `*it`, the tokens after it and `*opts`. -/
inductive ReqResult where
  | missing (msg : Str) (opts : Opts)
  | ok (cur : Str) (rest : List Str) (opts : Opts)

/-- The loop `while (req > 0)`; `cur` is `*it`, the list holds the tokens after `it`. -/
def takeRequired (key : Str) : Int → Str → List Str → Opts → ReqResult
  | req, cur, [], opts =>
    if req > 0 then .missing (missingArgMsg cur) opts else .ok cur [] opts
  | req, cur, a :: rest, opts =>
    if req > 0 then takeRequired key (req - 1) a rest (opts.append key (a ++ [' ']))
    else .ok cur (a :: rest) opts

/-- Outcome of the optional-argument loop (lines 166-173). -/
inductive OptResult where
  | oob (opts : Opts)
  | ok (rest : List Str) (opts : Opts)

/-- The loop `while (opt > 0 && validOpts[*it] == NULL && *(it + 1) != "--")`;
`cur` is `*it`, the list holds the tokens after `it`. -/
def takeOptional (V : Str → Option VArgs) (key : Str) :
    Int → Str → List Str → Opts → OptResult
  | opt, cur, [], opts =>
    if opt > 0 ∧ V cur = none then .oob opts else .ok [] opts
  | opt, cur, a :: rest, opts =>
    if opt > 0 ∧ V cur = none ∧ a ≠ dashDash then
      if V a = none then takeOptional V key (opt - 1) a rest (opts.append key (a ++ [' ']))
      else .ok (a :: rest) opts
    else .ok (a :: rest) opts

/-- What one iteration of the token loop does: it ends the call, or it hands the
tokens that follow the last consumed one to the next iteration. -/
inductive Step where
  | done (r : Result)
  | next (rest : List Str) (st : St)

/-- The body of the token loop (lines 138-174) at token `tok`, followed by `rest`. -/
def iteration (V : Str → Option VArgs) (tok : Str) (rest : List Str) (st : St) : Step :=
  match V tok with
  | none =>
    if tok.head? = some '-' ∧ tok ≠ dashDash ∧ st.endOfArgs = false then
      .done (.returned (invalidOptionMsg tok) st.opts st.params)
    else if tok = dashDash then .next rest { st with endOfArgs := true }
    else .next rest { st with params := st.params ++ [tok] }
  | some va =>
    let o1 := st.opts.set va.key []
    let o2 := if va.optional = 0 ∧ va.required = 0 then o1.set va.key "true".toList else o1
    match takeRequired va.key va.required tok rest o2 with
    | .missing msg o3 => .done (.returned msg o3 st.params)
    | .ok cur rest1 o3 =>
      match takeOptional V va.key va.optional cur rest1 o3 with
      | .oob o4 => .done (.outOfBounds o4 st.params)
      | .ok rest2 o4 => .next rest2 { st with opts := o4 }

/-- The token loop (lines 136-175) and the final `return ""`. -/
def scanTokens (V : Str → Option VArgs) : Nat → List Str → St → Option Result
  | _, [], st => some (.returned [] st.opts st.params)
  | 0, _ :: _, _ => none
  | fuel + 1, tok :: rest, st =>
    match iteration V tok rest st with
    | .done r => some r
    | .next rest1 st1 => scanTokens V fuel rest1 st1

/-- Model of `getOpts(valids, tokens, opts, params)`: `opts0` and `params0` are the
contents of the two containers at the call. -/
def getOpts (valids : Str) (tokens : List Str) (opts0 : Opts) (params0 : List Str) :
    Option Result :=
  scanTokens (compile valids).lookup tokens.length tokens ⟨opts0, params0, false⟩

/-- The text `a1 + " " + a2 + " " + ...`: every argument followed by one space. -/
def spaced (args : List Str) : Str := (args.map (fun a => a ++ [' '])).flatten

/-- The value an occurrence of an option builds from the tokens it consumes: `"true"`
for an option without arguments (which consumes nothing), otherwise the consumed
tokens each followed by a space. -/
def optionValue (va : VArgs) (consumed : List Str) : Str :=
  (if va.optional = 0 ∧ va.required = 0 then "true".toList else []) ++ spaced consumed

/-- The token loop with exactly one unit of fuel per remaining token. -/
def run (V : Str → Option VArgs) (toks : List Str) (st : St) : Option Result :=
  scanTokens V toks.length toks st

/-- Reachability of loop heads: `Reaches V toks st toks1 st1` says that the token
loop started at the tokens `toks` in state `st` arrives, after zero or more
complete iterations, at the head of the loop with `toks1` still to be read and
state `st1`. -/
inductive Reaches (V : Str → Option VArgs) : List Str → St → List Str → St → Prop where
  | here (toks : List Str) (st : St) : Reaches V toks st toks st
  | step {tok : Str} {rest rest1 toks2 : List Str} {st st1 st2 : St} :
      iteration V tok rest st = .next rest1 st1 → Reaches V rest1 st1 toks2 st2 →
      Reaches V (tok :: rest) st toks2 st2

/-! ## The documented grammar of the format string -/

/-- A definition of the documented form `KEY[,ALTKEY...][:REQUIRED[:OPTIONAL]]`:
its alias keys in order, and the texts of the two counts when they are written. -/
structure OptDef where
  keys : List Str
  counts : Option (Str × Option Str)
  deriving DecidableEq

/-- The keys of a definition, separated by commas. -/
def renderKeys : List Str → Str
  | [] => []
  | [k] => k
  | k :: k2 :: ks => k ++ ',' :: renderKeys (k2 :: ks)

/-- The text `:REQUIRED[:OPTIONAL]` of a definition, empty when there is none. -/
def renderCounts : Option (Str × Option Str) → Str
  | none => []
  | some (R, none) => ':' :: R
  | some (R, some O) => ':' :: (R ++ ':' :: O)

/-- The text of a definition. -/
def OptDef.render (d : OptDef) : Str := renderKeys d.keys ++ renderCounts d.counts

/-- The number written by a string of decimal digits (positional value). -/
def decimalValue : Str → Nat
  | [] => 0
  | c :: cs => digitVal c * 10 ^ cs.length + decimalValue cs

/-- A count field: decimal digits only, with a value in the range of `int`. -/
def isCount (s : Str) : Bool := s.all Char.isDigit && decide (decimalValue s < 2 ^ 31)

/-- A key: non-empty, without comma or colon. -/
def isKey (k : Str) : Bool := !k.isEmpty && k.all (fun c => c != ',' && c != ':')

/-- A definition of the documented form: at least one key, every key non-empty and
free of `,` and `:`, the counts (when written) decimal and within `int`. -/
def OptDef.wellFormed (d : OptDef) : Bool :=
  !d.keys.isEmpty && d.keys.all isKey &&
    match d.counts with
    | none => true
    | some (R, none) => isCount R
    | some (R, some O) => isCount R && isCount O

/-- The required count written in a definition, `0` when omitted. -/
def OptDef.required (d : OptDef) : Int :=
  match d.counts with
  | none => 0
  | some (R, _) => (decimalValue R : Int)

/-- The optional count written in a definition, `0` when omitted. -/
def OptDef.optional (d : OptDef) : Int :=
  match d.counts with
  | some (_, some O) => (decimalValue O : Int)
  | _ => 0

/-- The record a definition of the documented form stands for: the counts as
written and the first key as canonical key. -/
def OptDef.record (d : OptDef) : VArgs := ⟨d.required, d.optional, d.keys.headD []⟩

/-! ## The rule of optional-argument consumption, in the words of the specification -/

/-- A token that may be taken as an optional argument: neither a recognized key nor
the separator `--`. -/
def isCandidate (V : Str → Option VArgs) (t : Str) : Bool := (V t).isNone && t != dashDash

/-- The tokens an option with required count `r` and optional count `o` takes as
optional arguments, `args` being its required arguments and `more` the tokens after
them: none when `r = 0`, none when the last required argument is itself a recognized
key, and otherwise the longest run of at most `o` tokens at the head of `more` in
which every token is neither a recognized key nor `--`. -/
def optionalArgs (V : Str → Option VArgs) (r o : Int) (args more : List Str) : List Str :=
  if r = 0 ∨ (args.getLast?.bind V).isSome then []
  else (more.takeWhile (isCandidate V)).take o.toNat

/-- The stream ends while optional arguments may still be taken: the option has
required arguments, the last of them is not a recognized key, the optional
arguments taken are all the tokens that were left, and they are fewer than `o`. -/
def readsPastEnd (V : Str → Option VArgs) (r o : Int) (args more : List Str) : Prop :=
  r ≠ 0 ∧ (args.getLast?.bind V).isSome = false ∧
    optionalArgs V r o args more = more ∧ ((optionalArgs V r o args more).length : Int) < o

/-! ## `toCurrency` (utils.h lines 351-356) -/

/-- What `operator<<` writes for an `int`: a minus sign for a negative number, then
the decimal digits of the magnitude. -/
def showInt (n : Int) : Str :=
  if n < 0 then '-' :: Nat.toDigits 10 n.natAbs else Nat.toDigits 10 n.natAbs

/-- Output through `std::setfill('0') << std::setw(w)` with the default adjustment:
the text is padded on the left with `0` up to the width `w`. -/
def padZero (w : Nat) (s : Str) : Str := List.replicate (w - s.length) '0' ++ s

/-- Model of `toCurrency(cents)`; `/` and `%` on `int` truncate toward zero. -/
def toCurrency (cents : Int) : Str :=
  padZero 1 (showInt (Int.tdiv cents 100)) ++ '.' :: padZero 2 (showInt (Int.tmod cents 100))

/-! ## Definitions of the documented shape with arbitrary count fields -/

/-- A count field as written: any text without `,` and `:`. -/
def isField (s : Str) : Bool := s.all (fun c => c != ',' && c != ':')

/-- A definition of the shape `KEY[,ALTKEY...][:REQUIRED[:OPTIONAL]]`: like
`wellFormed`, but the two count fields may hold any text. -/
def OptDef.shaped (d : OptDef) : Bool :=
  !d.keys.isEmpty && d.keys.all isKey &&
    match d.counts with
    | none => true
    | some (R, none) => isField R
    | some (R, some O) => isField R && isField O

/-- The text of the REQUIRED field, empty when there is none. -/
def OptDef.requiredText (d : OptDef) : Str :=
  match d.counts with
  | none => []
  | some (R, _) => R

/-- The text of the OPTIONAL field, empty when there is none. -/
def OptDef.optionalText (d : OptDef) : Str :=
  match d.counts with
  | some (_, some O) => O
  | _ => []

/-- The record a definition of the documented shape is compiled to: `atoi` of the
two fields and the first key. -/
def OptDef.compiled (d : OptDef) : VArgs :=
  ⟨atoi d.requiredText, atoi d.optionalText, d.keys.headD []⟩

/-! ## Basic facts about the loops -/

theorem takeRequired_suffix (key : Str) :
    ∀ (rest : List Str) (req : Int) (cur : Str) (o : Opts) (cur1 : Str) (rest1 : List Str)
      (o1 : Opts), takeRequired key req cur rest o = .ok cur1 rest1 o1 → rest1 <:+ rest := by
  intro rest
  induction rest with
  | nil =>
    intro req cur o cur1 rest1 o1 h
    unfold takeRequired at h
    split at h
    · cases h
    · cases h; exact List.suffix_refl _
  | cons a rest ih =>
    intro req cur o cur1 rest1 o1 h
    unfold takeRequired at h
    split at h
    · exact (ih _ _ _ _ _ _ h).trans (List.suffix_cons a rest)
    · cases h; exact List.suffix_refl _

theorem takeOptional_suffix (V : Str → Option VArgs) (key : Str) :
    ∀ (rest : List Str) (opt : Int) (cur : Str) (o : Opts) (rest1 : List Str) (o1 : Opts),
      takeOptional V key opt cur rest o = .ok rest1 o1 → rest1 <:+ rest := by
  intro rest
  induction rest with
  | nil =>
    intro opt cur o rest1 o1 h
    unfold takeOptional at h
    split at h
    · cases h
    · cases h; exact List.suffix_refl _
  | cons a rest ih =>
    intro opt cur o rest1 o1 h
    unfold takeOptional at h
    split at h
    · split at h
      · exact (ih _ _ _ _ _ h).trans (List.suffix_cons a rest)
      · cases h; exact List.suffix_refl _
    · cases h; exact List.suffix_refl _

theorem iteration_next_suffix {V : Str → Option VArgs} {tok : Str} {rest rest1 : List Str}
    {st st1 : St} (h : iteration V tok rest st = .next rest1 st1) : rest1 <:+ rest := by
  unfold iteration at h
  split at h
  · split at h
    · cases h
    · split at h <;> (cases h; exact List.suffix_refl _)
  · simp only at h
    split at h
    · cases h
    · rename_i cur r1 o3 hreq
      split at h
      · cases h
      · rename_i r2 o4 hopt
        cases h
        exact (takeOptional_suffix _ _ _ _ _ _ _ _ hopt).trans
          (takeRequired_suffix _ _ _ _ _ _ _ _ hreq)

theorem scanTokens_fuel (V : Str → Option VArgs) :
    ∀ (f : Nat) (toks : List Str) (st : St), toks.length ≤ f →
      scanTokens V f toks st = run V toks st := by
  intro f
  induction f using Nat.strong_induction_on with
  | _ f ih =>
    intro toks st hf
    cases toks with
    | nil => cases f <;> simp [run, scanTokens]
    | cons tok rest =>
      cases f with
      | zero => simp at hf
      | succ f =>
        simp only [run, List.length_cons, scanTokens]
        cases hit : iteration V tok rest st with
        | done r => rfl
        | next rest1 st1 =>
          have hl : rest1.length ≤ rest.length := (iteration_next_suffix hit).length_le
          simp only
          have hf1 : rest.length ≤ f := by simpa using hf
          rw [ih f (Nat.lt_succ_self f) rest1 st1 (hl.trans hf1)]
          rw [ih rest.length (by omega) rest1 st1 hl]

theorem run_nil (V : Str → Option VArgs) (st : St) :
    run V [] st = some (.returned [] st.opts st.params) := rfl

theorem run_cons (V : Str → Option VArgs) (tok : Str) (rest : List Str) (st : St) :
    run V (tok :: rest) st =
      match iteration V tok rest st with
      | .done r => some r
      | .next rest1 st1 => run V rest1 st1 := by
  simp only [run, List.length_cons, scanTokens]
  cases hit : iteration V tok rest st with
  | done r => rfl
  | next rest1 st1 =>
    exact scanTokens_fuel V _ _ _ (iteration_next_suffix hit).length_le

theorem run_done {V : Str → Option VArgs} {tok : Str} {rest : List Str} {st : St} {r : Result}
    (h : iteration V tok rest st = .done r) : run V (tok :: rest) st = some r := by
  rw [run_cons, h]

theorem run_next {V : Str → Option VArgs} {tok : Str} {rest rest1 : List Str} {st st1 : St}
    (h : iteration V tok rest st = .next rest1 st1) :
    run V (tok :: rest) st = run V rest1 st1 := by
  rw [run_cons, h]

theorem run_of_reaches {V : Str → Option VArgs} {toks toks1 : List Str} {st st1 : St}
    (h : Reaches V toks st toks1 st1) : run V toks st = run V toks1 st1 := by
  induction h with
  | here => rfl
  | step hit _ ih => rw [run_next hit, ih]

/-- Strong induction on the tokens still to be read, along the iterations of the loop. -/
theorem run_induction (V : Str → Option VArgs) (P : List Str → St → Prop)
    (hnil : ∀ st, P [] st)
    (hdone : ∀ tok rest st r, iteration V tok rest st = .done r → P (tok :: rest) st)
    (hnext : ∀ tok rest st rest1 st1, iteration V tok rest st = .next rest1 st1 →
      rest1 <:+ rest → P rest1 st1 → P (tok :: rest) st) :
    ∀ toks st, P toks st := by
  have key : ∀ n (toks : List Str), toks.length = n → ∀ st, P toks st := by
    intro n
    induction n using Nat.strong_induction_on with
    | _ n ih =>
      intro toks hn st
      cases toks with
      | nil => exact hnil st
      | cons tok rest =>
        cases hit : iteration V tok rest st with
        | done r => exact hdone _ _ _ _ hit
        | next rest1 st1 =>
          have hs := iteration_next_suffix hit
          refine hnext _ _ _ _ _ hit hs (ih rest1.length ?_ rest1 rfl st1)
          have := hs.length_le
          simp at hn
          omega
  intro toks st
  exact key _ toks rfl st

/-- The token loop always ends: one unit of fuel per token suffices. -/
theorem run_isSome (V : Str → Option VArgs) : ∀ toks st, ∃ r, run V toks st = some r := by
  refine run_induction V (fun toks st => ∃ r, run V toks st = some r) ?_ ?_ ?_
  · intro st; exact ⟨_, run_nil V st⟩
  · intro tok rest st r h; exact ⟨r, run_done h⟩
  · intro tok rest st rest1 st1 h _ ih
    rw [run_next h]; exact ih

/-- Calls of `getOpts` always end (with a returned string or at the out-of-bounds read). -/
theorem getOpts_terminates (valids : Str) (tokens : List Str) (opts0 : Opts)
    (params0 : List Str) : ∃ r, getOpts valids tokens opts0 params0 = some r :=
  run_isSome _ _ _

/-! ## Facts about the options map -/

theorem Opts.set_set (o : Opts) (k : Str) (v w : Str) : (o.set k v).set k w = o.set k w := by
  funext x
  simp only [Opts.set]
  split <;> rfl

theorem Opts.set_append (o : Opts) (k : Str) (v w : Str) :
    (o.set k v).append k w = o.set k (v ++ w) := by
  funext x
  by_cases h : x = k <;> simp [Opts.append, Opts.set, h]

theorem Opts.set_same (o : Opts) (k : Str) (v : Str) : (o.set k v) k = some v := by
  simp [Opts.set]

theorem Opts.set_other (o : Opts) {k x : Str} (v : Str) (h : x ≠ k) : (o.set k v) x = o x := by
  simp [Opts.set, h]

theorem Opts.append_other (o : Opts) {k x : Str} (v : Str) (h : x ≠ k) :
    (o.append k v) x = o x := by
  simp [Opts.append, Opts.set, h]

/-- Appending the arguments one by one to an entry just set to `v`. -/
theorem foldl_append_set (key : Str) :
    ∀ (args : List Str) (o : Opts) (v : Str),
      args.foldl (fun o a => o.append key (a ++ [' '])) (o.set key v)
        = o.set key (v ++ spaced args) := by
  intro args
  induction args with
  | nil => intro o v; simp [spaced]
  | cons a args ih =>
    intro o v
    simp only [List.foldl_cons, Opts.set_append, ih]
    simp [spaced, List.append_assoc]

/-! ## The required-argument loop -/

/-- With at least `req` tokens available the loop consumes exactly the first `req`. -/
theorem takeRequired_exact (key : Str) :
    ∀ (args : List Str) (rest : List Str) (req : Int) (cur : Str) (o : Opts),
      req = (args.length : Int) →
      takeRequired key req cur (args ++ rest) o
        = .ok (args.getLastD cur) rest
            (args.foldl (fun o a => o.append key (a ++ [' '])) o) := by
  intro args
  induction args with
  | nil =>
    intro rest req cur o h
    have h0 : ¬ req > 0 := by simp [h]
    cases rest <;> simp [takeRequired, h0]
  | cons a args ih =>
    intro rest req cur o h
    have h1 : req > 0 := by simp at h; omega
    have h2 : req - 1 = (args.length : Int) := by rw [h]; simp
    have h3 : (a :: args) ++ rest = a :: (args ++ rest) := rfl
    rw [h3, takeRequired, if_pos h1, List.foldl_cons, ih rest (req - 1) a _ h2]
    cases args <;> simp [List.getLastD]

/-- With fewer than `req` tokens available the loop consumes them all and then
executes the `return` of line 161 with the token `*it` reached by then. -/
theorem takeRequired_short (key : Str) :
    ∀ (args : List Str) (req : Int) (cur : Str) (o : Opts),
      (args.length : Int) < req →
      takeRequired key req cur args o
        = .missing (missingArgMsg (args.getLastD cur))
            (args.foldl (fun o a => o.append key (a ++ [' '])) o) := by
  intro args
  induction args with
  | nil =>
    intro req cur o h
    have h1 : req > 0 := by simpa using h
    simp [takeRequired, h1]
  | cons a args ih =>
    intro req cur o h
    have h1 : req > 0 := by simp at h; omega
    have h2 : (args.length : Int) < req - 1 := by simp at h; omega
    rw [takeRequired, if_pos h1, List.foldl_cons, ih (req - 1) a _ h2]
    cases args <;> simp [List.getLastD]

/-- An option without optional arguments never enters the optional-argument loop. -/
theorem takeOptional_zero (V : Str → Option VArgs) (key cur : Str) (rest : List Str) (o : Opts) :
    takeOptional V key 0 cur rest o = .ok rest o := by
  cases rest <;> simp [takeOptional]

/-! ## One iteration of the token loop -/

theorem invalidOptionMsg_ne_nil (t : Str) : invalidOptionMsg t ≠ [] := by
  simp [invalidOptionMsg]

theorem missingArgMsg_ne_nil (t : Str) : missingArgMsg t ≠ [] := by
  simp [missingArgMsg]

theorem missingArgMsg_ne_invalidOptionMsg (s t : Str) :
    missingArgMsg s ≠ invalidOptionMsg t := by
  intro h
  have h1 := congrArg List.getLast? h
  have e1 : (" requires an argument".toList).getLast? = some 't' := rfl
  have e2 : ("\"".toList).getLast? = some '"' := rfl
  simp only [missingArgMsg, invalidOptionMsg, List.getLast?_append, e1, e2, Option.or_some] at h1
  cases h1

/-- The token is not a recognized key and is neither a dash token met before the
separator nor the separator: it is appended to `params`. -/
theorem iteration_param {V : Str → Option VArgs} {tok : Str} (rest : List Str) (st : St)
    (hV : V tok = none) (hd : tok.head? ≠ some '-' ∨ st.endOfArgs = true)
    (hs : tok ≠ dashDash) :
    iteration V tok rest st = .next rest { st with params := st.params ++ [tok] } := by
  have h1 : ¬ (tok.head? = some '-' ∧ tok ≠ dashDash ∧ st.endOfArgs = false) := by
    rintro ⟨a, _, b⟩
    rcases hd with hd | hd
    · exact hd a
    · rw [hd] at b; cases b
  simp only [iteration, hV, h1, if_false, hs]

/-- The unrecognized token `--` sets `endOfArgs` and is not stored. -/
theorem iteration_separator {V : Str → Option VArgs} (rest : List Str) (st : St)
    (hV : V dashDash = none) :
    iteration V dashDash rest st = .next rest { st with endOfArgs := true } := by
  simp [iteration, hV]

/-- An unrecognized dash token met before the separator ends the call (line 142). -/
theorem iteration_invalid {V : Str → Option VArgs} {tok : Str} (rest : List Str) (st : St)
    (hV : V tok = none) (hd : tok.head? = some '-') (hs : tok ≠ dashDash)
    (he : st.endOfArgs = false) :
    iteration V tok rest st = .done (.returned (invalidOptionMsg tok) st.opts st.params) := by
  simp [iteration, hV, hd, hs, he]

theorem takeRequired_missing_form (key : Str) :
    ∀ (rest : List Str) (req : Int) (cur : Str) (o : Opts) (msg : Str) (o1 : Opts),
      takeRequired key req cur rest o = .missing msg o1 → ∃ t, msg = missingArgMsg t := by
  intro rest
  induction rest with
  | nil =>
    intro req cur o msg o1 h
    unfold takeRequired at h
    split at h
    · cases h; exact ⟨cur, rfl⟩
    · cases h
  | cons a rest ih =>
    intro req cur o msg o1 h
    unfold takeRequired at h
    split at h
    · exact ih _ _ _ _ _ h
    · cases h

/-- The loops of an option write to no entry of `*opts` but the one of its key. -/
theorem takeRequired_opts_other (key : Str) {x : Str} (hx : x ≠ key) :
    ∀ (rest : List Str) (req : Int) (cur : Str) (o : Opts),
      (∀ msg o1, takeRequired key req cur rest o = .missing msg o1 → o1 x = o x) ∧
      (∀ cur1 rest1 o1, takeRequired key req cur rest o = .ok cur1 rest1 o1 → o1 x = o x) := by
  intro rest
  induction rest with
  | nil =>
    intro req cur o
    unfold takeRequired
    constructor
    · intro msg o1 h; split at h <;> cases h; rfl
    · intro cur1 rest1 o1 h; split at h <;> cases h; rfl
  | cons a rest ih =>
    intro req cur o
    unfold takeRequired
    constructor
    · intro msg o1 h
      split at h
      · rw [(ih _ _ _).1 _ _ h, Opts.append_other _ _ hx]
      · cases h
    · intro cur1 rest1 o1 h
      split at h
      · rw [(ih _ _ _).2 _ _ _ h, Opts.append_other _ _ hx]
      · cases h; rfl

theorem takeOptional_opts_other (V : Str → Option VArgs) (key : Str) {x : Str} (hx : x ≠ key) :
    ∀ (rest : List Str) (opt : Int) (cur : Str) (o : Opts),
      (∀ o1, takeOptional V key opt cur rest o = .oob o1 → o1 x = o x) ∧
      (∀ rest1 o1, takeOptional V key opt cur rest o = .ok rest1 o1 → o1 x = o x) := by
  intro rest
  induction rest with
  | nil =>
    intro opt cur o
    unfold takeOptional
    constructor
    · intro o1 h; split at h <;> cases h; rfl
    · intro rest1 o1 h; split at h <;> cases h; rfl
  | cons a rest ih =>
    intro opt cur o
    unfold takeOptional
    constructor
    · intro o1 h
      split at h
      · split at h
        · rw [(ih _ _ _).1 _ h, Opts.append_other _ _ hx]
        · cases h
      · cases h
    · intro rest1 o1 h
      split at h
      · split at h
        · rw [(ih _ _ _).2 _ _ h, Opts.append_other _ _ hx]
        · cases h; rfl
      · cases h; rfl

/-- What an iteration can do, seen from outside: `params` grows by at most the
current token, `endOfArgs` is never reset, and `*opts` changes at most at the
canonical key of the current token. -/
theorem iteration_next_facts {V : Str → Option VArgs} {tok : Str} {rest rest1 : List Str}
    {st st1 : St} (h : iteration V tok rest st = .next rest1 st1) :
    (st1.params = st.params ∨ st1.params = st.params ++ [tok]) ∧
    (st.endOfArgs = true → st1.endOfArgs = true) ∧
    (∀ x, (∀ va, V tok = some va → va.key ≠ x) → st1.opts x = st.opts x) := by
  unfold iteration at h
  split at h
  · rename_i hV
    split at h
    · cases h
    · split at h <;> cases h
      · exact ⟨Or.inl rfl, fun _ => rfl, fun _ _ => rfl⟩
      · exact ⟨Or.inr rfl, fun e => e, fun _ _ => rfl⟩
  · rename_i va hV
    simp only at h
    split at h
    · cases h
    · rename_i cur r1 o3 hreq
      split at h
      · cases h
      · rename_i r2 o4 hopt
        cases h
        refine ⟨Or.inl rfl, fun e => e, fun x hx => ?_⟩
        have hx1 : x ≠ va.key := fun e => hx va hV e.symm
        show o4 x = _
        rw [(takeOptional_opts_other V va.key hx1 _ _ _ _).2 _ _ hopt,
          (takeRequired_opts_other va.key hx1 _ _ _ _).2 _ _ _ hreq]
        split
        · rw [Opts.set_other _ _ hx1, Opts.set_other _ _ hx1]
        · rw [Opts.set_other _ _ hx1]

/-- When an iteration ends the call, `params` is as the iteration found it, `*opts`
differs at most at the canonical key of the current token, and an invalid-option
string is returned only while `endOfArgs` is unset. -/
theorem iteration_done_facts {V : Str → Option VArgs} {tok : Str} {rest : List Str}
    {st : St} {r : Result} (h : iteration V tok rest st = .done r) :
    r.params = st.params ∧
    (∀ x, (∀ va, V tok = some va → va.key ≠ x) → r.opts x = st.opts x) ∧
    (st.endOfArgs = true → ∀ t, r.msg? ≠ some (invalidOptionMsg t)) ∧
    r.msg? ≠ some [] := by
  unfold iteration at h
  split at h
  · split at h
    · rename_i hc
      cases h
      refine ⟨rfl, fun _ _ => rfl, fun e => ?_, ?_⟩
      · rw [e] at hc; simp at hc
      · simp [Result.msg?, invalidOptionMsg]
    · split at h <;> cases h
  · rename_i va hV
    simp only at h
    split at h
    · rename_i msg o3 hreq
      cases h
      obtain ⟨t0, ht0⟩ := takeRequired_missing_form _ _ _ _ _ _ _ hreq
      refine ⟨rfl, fun x hx => ?_, fun _ t => ?_, ?_⟩
      · have hx1 : x ≠ va.key := fun e => hx va hV e.symm
        show o3 x = _
        rw [(takeRequired_opts_other va.key hx1 _ _ _ _).1 _ _ hreq]
        split
        · rw [Opts.set_other _ _ hx1, Opts.set_other _ _ hx1]
        · rw [Opts.set_other _ _ hx1]
      · simp only [Result.msg?, ht0, ne_eq, Option.some.injEq]
        exact missingArgMsg_ne_invalidOptionMsg _ _
      · simp only [Result.msg?, ht0, ne_eq, Option.some.injEq]
        exact missingArgMsg_ne_nil _
    · rename_i cur r1 o3 hreq
      split at h
      · rename_i o4 hopt
        cases h
        refine ⟨rfl, fun x hx => ?_, fun _ t => by simp [Result.msg?], by simp [Result.msg?]⟩
        have hx1 : x ≠ va.key := fun e => hx va hV e.symm
        show o4 x = _
        rw [(takeOptional_opts_other V va.key hx1 _ _ _ _).1 _ hopt,
          (takeRequired_opts_other va.key hx1 _ _ _ _).2 _ _ _ hreq]
        split
        · rw [Opts.set_other _ _ hx1, Opts.set_other _ _ hx1]
        · rw [Opts.set_other _ _ hx1]
      · cases h

/-! ## Facts about whole runs -/

/-- A run of unrecognized tokens without a leading dash is copied to `params`. -/
theorem reaches_positional (V : Str → Option VArgs) :
    ∀ (pre : List Str) (toks : List Str) (st : St),
      (∀ t ∈ pre, V t = none ∧ t.head? ≠ some '-') →
      Reaches V (pre ++ toks) st toks { st with params := st.params ++ pre } := by
  intro pre
  induction pre with
  | nil => intro toks st _; simpa using Reaches.here toks st
  | cons t pre ih =>
    intro toks st h
    have ht := h t (List.mem_cons_self _ _)
    have hs : t ≠ dashDash := by
      intro e; apply ht.2; rw [e]; rfl
    have hit := iteration_param (pre ++ toks) st ht.1 (Or.inl ht.2) hs
    have hrest := ih toks { st with params := st.params ++ [t] }
      (fun u hu => h u (List.mem_cons_of_mem _ hu))
    simp only [List.append_assoc, List.singleton_append] at hrest
    exact Reaches.step hit hrest

/-- The positional parameters added by a run form a subsequence of the tokens. -/
theorem run_params_sublist (V : Str → Option VArgs) :
    ∀ toks st r, run V toks st = some r →
      ∃ l, r.params = st.params ++ l ∧ l.Sublist toks := by
  refine run_induction V
    (fun toks st => ∀ r, run V toks st = some r →
      ∃ l, r.params = st.params ++ l ∧ l.Sublist toks) ?_ ?_ ?_
  · intro st r h
    rw [run_nil] at h
    cases h
    exact ⟨[], by simp [Result.params], List.Sublist.refl _⟩
  · intro tok rest st r0 hit r h
    rw [run_done hit] at h
    cases h
    exact ⟨[], by simp [(iteration_done_facts hit).1], List.nil_sublist _⟩
  · intro tok rest st rest1 st1 hit hsuf ih r h
    rw [run_next hit] at h
    obtain ⟨l, hl, hsub⟩ := ih r h
    have hsub1 : l.Sublist rest := hsub.trans hsuf.sublist
    rcases (iteration_next_facts hit).1 with hp | hp
    · exact ⟨l, by rw [hl, hp], hsub1.trans (List.sublist_cons_self _ _)⟩
    · exact ⟨tok :: l, by rw [hl, hp]; simp, hsub1.cons₂ tok⟩

/-- Once `endOfArgs` is set it stays set at every later loop head. -/
theorem reaches_endOfArgs {V : Str → Option VArgs} {toks toks1 : List Str} {st st1 : St}
    (h : Reaches V toks st toks1 st1) (he : st.endOfArgs = true) : st1.endOfArgs = true := by
  induction h with
  | here => exact he
  | step hit _ ih => exact ih ((iteration_next_facts hit).2.1 he)

/-- With `endOfArgs` set, a run never returns an invalid-option string. -/
theorem run_no_invalid_after_separator (V : Str → Option VArgs) :
    ∀ toks st, st.endOfArgs = true → ∀ r, run V toks st = some r →
      ∀ t, r.msg? ≠ some (invalidOptionMsg t) := by
  refine run_induction V
    (fun toks st => st.endOfArgs = true → ∀ r, run V toks st = some r →
      ∀ t, r.msg? ≠ some (invalidOptionMsg t)) ?_ ?_ ?_
  · intro st _ r h t
    rw [run_nil] at h
    cases h
    simp only [Result.msg?, ne_eq, Option.some.injEq]
    exact fun e => invalidOptionMsg_ne_nil t e.symm
  · intro tok rest st r0 hit he r h
    rw [run_done hit] at h
    cases h
    exact (iteration_done_facts hit).2.2.1 he
  · intro tok rest st rest1 st1 hit _ ih he r h
    rw [run_next hit] at h
    exact ih ((iteration_next_facts hit).2.1 he) r h

/-! ## The specification compiler on definitions of the documented form -/

theorem foldl_digits (s : Str) :
    ∀ acc : Nat, s.foldl (fun a c => 10 * a + digitVal c) acc
      = acc * 10 ^ s.length + decimalValue s := by
  induction s with
  | nil => intro acc; simp [decimalValue]
  | cons c cs ih =>
    intro acc
    simp only [List.foldl_cons, ih, decimalValue, List.length_cons]
    ring

theorem isDigit_not_space {c : Char} (h : c.isDigit = true) : isSpace c = false := by
  cases hs : isSpace c with
  | false => rfl
  | true =>
    simp only [isSpace, Bool.or_eq_true, decide_eq_true_eq] at hs
    rcases hs with ((((h1 | h1) | h1) | h1) | h1) | h1 <;> (subst h1; revert h; decide)

theorem clamp_wrap_of_lt (n : Nat) (h : n < 2 ^ 31) : toInt32 (clampLong (n : Int)) = n := by
  have h0 : (0 : Int) ≤ n := Int.ofNat_nonneg n
  have h1 : (n : Int) < 2 ^ 31 := by exact_mod_cast h
  unfold toInt32 clampLong
  rw [if_neg (by omega), if_neg (by omega)]
  omega

/-- On a count field `atoi` returns the number written. -/
theorem atoi_count {s : Str} (h : isCount s = true) : atoi s = (decimalValue s : Int) := by
  simp only [isCount, Bool.and_eq_true, List.all_eq_true, decide_eq_true_eq] at h
  obtain ⟨hd, hlt⟩ := h
  have h1 : s.dropWhile isSpace = s := by
    cases s with
    | nil => rfl
    | cons c cs =>
      rw [List.dropWhile_cons, isDigit_not_space (hd c (List.mem_cons_self _ _))]
      rfl
  have h2 : s.takeWhile Char.isDigit = s := List.takeWhile_eq_self_iff.2 hd
  have h3 : atoiSign s = (false, s) := by
    cases s with
    | nil => rfl
    | cons c cs =>
      have hc := hd c (List.mem_cons_self _ _)
      have hm : c ≠ '-' := by rintro rfl; exact absurd hc (by decide)
      have hp : c ≠ '+' := by rintro rfl; exact absurd hc (by decide)
      simp [atoiSign, hm, hp]
  unfold atoi
  simp only [h1, h3, h2, foldl_digits, zero_mul, zero_add, Bool.false_eq_true, if_false]
  exact clamp_wrap_of_lt _ hlt

theorem atoi_nil : atoi [] = 0 := by decide

@[simp] theorem Table.bind_next (t : Table) (h : Str) (p : Nat) : (t.bind h p).next = t.next := rfl
@[simp] theorem Table.bind_heap (t : Table) (h : Str) (p : Nat) : (t.bind h p).heap = t.heap := rfl
@[simp] theorem Table.bind_map (t : Table) (h : Str) (p : Nat) (a : Str) :
    (t.bind h p).map a = if a = h then some p else t.map a := rfl
@[simp] theorem Table.modify_next (t : Table) (p : Nat) (f : VArgs → VArgs) :
    (t.modify p f).next = t.next := rfl
@[simp] theorem Table.modify_map (t : Table) (p : Nat) (f : VArgs → VArgs) :
    (t.modify p f).map = t.map := rfl
@[simp] theorem Table.modify_heap (t : Table) (p : Nat) (f : VArgs → VArgs) (q : Nat) :
    (t.modify p f).heap q = if q = p then f (t.heap q) else t.heap q := rfl

theorem Table.register_next (t : Table) (p : Nat) (h : Str) : (t.register p h).next = t.next := by
  unfold Table.register Table.setKeyIfEmpty
  split <;> rfl

theorem Table.register_map (t : Table) (p : Nat) (h : Str) (a : Str) :
    (t.register p h).map a = if a = h then some p else t.map a := by
  unfold Table.register Table.setKeyIfEmpty
  split <;> rfl

/-- The first registration gives the record its canonical key. -/
theorem Table.register_heap_of_empty (t : Table) (p : Nat) (h : Str)
    (hk : (t.heap p).key = []) (q : Nat) :
    (t.register p h).heap q = if q = p then { t.heap p with key := h } else t.heap q := by
  unfold Table.register Table.setKeyIfEmpty
  rw [Table.bind_heap, if_pos hk]
  simp only [Table.modify_heap, Table.bind_heap]
  split
  · rename_i e; rw [e]
  · rfl

/-- Later registrations leave the records alone. -/
theorem Table.register_heap_of_ne (t : Table) (p : Nat) (h : Str)
    (hk : (t.heap p).key ≠ []) : (t.register p h).heap = t.heap := by
  unfold Table.register Table.setKeyIfEmpty
  rw [Table.bind_heap, if_neg hk]
  rfl

/-- At the first colon the key is set before the alias is bound; the outcome is the
same registration. -/
theorem atColon_zero (p : Nat) (h : Str) (t : Table) : atColon p 0 h t = t.register p h := by
  unfold atColon Table.register Table.setKeyIfEmpty
  simp only [Table.bind_heap]
  split <;> rfl

/-- Characters other than `,` and `:` that are not the last of the definition are
collected in `hash`. -/
theorem scanDef_plain_append (p : Nat) :
    ∀ (w cs : Str) (mode : Nat) (hash : Str) (t : Table),
      (∀ c ∈ w, c ≠ ',' ∧ c ≠ ':') → cs ≠ [] →
      scanDef p (w ++ cs) mode hash t = scanDef p cs mode (hash ++ w) t := by
  intro w
  induction w with
  | nil => intro cs mode hash t _ _; simp
  | cons c w ih =>
    intro cs mode hash t hw hcs
    have hc := hw c (List.mem_cons_self _ _)
    have hne : w ++ cs ≠ [] := by simp [hcs]
    rw [List.cons_append, scanDef, if_neg hc.1, if_neg hc.2, if_neg hne,
      ih cs mode _ t (fun x hx => hw x (List.mem_cons_of_mem _ hx)) hcs]
    simp

/-- Characters other than `,` and `:` that end the definition are collected in
`hash`, and the last of them triggers the final `switch (mode)`. -/
theorem scanDef_plain_end (p : Nat) :
    ∀ (w : Str) (mode : Nat) (hash : Str) (t : Table),
      (∀ c ∈ w, c ≠ ',' ∧ c ≠ ':') → w ≠ [] →
      scanDef p w mode hash t = atEnd p mode (hash ++ w) t := by
  intro w
  induction w with
  | nil => intro mode hash t _ h; exact absurd rfl h
  | cons c w ih =>
    intro mode hash t hw _
    have hc := hw c (List.mem_cons_self _ _)
    rw [scanDef, if_neg hc.1, if_neg hc.2]
    cases w with
    | nil => simp [scanDef]
    | cons c2 w2 =>
      rw [if_neg (List.cons_ne_nil _ _),
        ih mode _ t (fun x hx => hw x (List.mem_cons_of_mem _ hx)) (List.cons_ne_nil _ _)]
      simp

theorem isKey_plain {k : Str} (h : isKey k = true) :
    k ≠ [] ∧ ∀ c ∈ k, c ≠ ',' ∧ c ≠ ':' := by
  simp only [isKey, Bool.and_eq_true, Bool.not_eq_true', List.isEmpty_eq_false,
    List.all_eq_true, bne_iff_ne, ne_eq] at h
  exact ⟨by simpa using h.1, h.2⟩

theorem isCount_plain {s : Str} (h : isCount s = true) : ∀ c ∈ s, c ≠ ',' ∧ c ≠ ':' := by
  simp only [isCount, Bool.and_eq_true, List.all_eq_true, decide_eq_true_eq] at h
  intro c hc
  have hd := h.1 c hc
  constructor <;> (rintro rfl; exact absurd hd (by decide))

/-- The keys of a definition without counts are registered one after the other. -/
theorem scanDef_keys_end (p : Nat) :
    ∀ (keys : List Str) (t : Table), keys ≠ [] → (∀ k ∈ keys, isKey k = true) →
      scanDef p (renderKeys keys) 0 [] t = keys.foldl (fun t k => t.register p k) t := by
  intro keys
  induction keys with
  | nil => intro t h; exact absurd rfl h
  | cons k ks ih =>
    intro t _ hk
    have hkk := isKey_plain (hk k (List.mem_cons_self _ _))
    cases ks with
    | nil =>
      rw [renderKeys, scanDef_plain_end p k 0 [] t hkk.2 hkk.1]
      rfl
    | cons k2 ks =>
      rw [renderKeys, scanDef_plain_append p k _ 0 [] t hkk.2 (List.cons_ne_nil _ _), scanDef,
        if_pos rfl, List.nil_append, List.foldl_cons]
      exact ih _ (List.cons_ne_nil _ _) (fun x hx => hk x (List.mem_cons_of_mem _ hx))

/-- The keys of a definition with counts are registered one after the other; the
scan goes on after the first colon in mode 1. -/
theorem scanDef_keys_colon (p : Nat) :
    ∀ (keys : List Str) (s : Str) (t : Table), keys ≠ [] → (∀ k ∈ keys, isKey k = true) →
      scanDef p (renderKeys keys ++ ':' :: s) 0 [] t
        = scanDef p s 1 [] (keys.foldl (fun t k => t.register p k) t) := by
  intro keys
  induction keys with
  | nil => intro s t h; exact absurd rfl h
  | cons k ks ih =>
    intro s t _ hk
    have hkk := isKey_plain (hk k (List.mem_cons_self _ _))
    cases ks with
    | nil =>
      rw [renderKeys, scanDef_plain_append p k _ 0 [] t hkk.2 (List.cons_ne_nil _ _), scanDef,
        if_neg (by decide), if_pos rfl, List.nil_append, atColon_zero]
      rfl
    | cons k2 ks =>
      rw [renderKeys, List.append_assoc, List.cons_append,
        scanDef_plain_append p k _ 0 [] t hkk.2 (List.cons_ne_nil _ _), scanDef,
        if_pos rfl, List.nil_append, List.foldl_cons]
      exact ih _ _ (List.cons_ne_nil _ _) (fun x hx => hk x (List.mem_cons_of_mem _ hx))

/-- A count field that ends the definition. -/
theorem scanDef_count_end (p : Nat) (R : Str) (mode : Nat) (t : Table)
    (h : isCount R = true) :
    scanDef p R mode [] t = if R = [] then t else atEnd p mode R t := by
  by_cases hR : R = []
  · subst hR; rfl
  · rw [if_neg hR, scanDef_plain_end p R mode [] t (isCount_plain h) hR, List.nil_append]

/-- The required count followed by the second colon. -/
theorem scanDef_count_colon (p : Nat) (R s : Str) (t : Table) (h : isCount R = true) :
    scanDef p (R ++ ':' :: s) 1 [] t
      = scanDef p s 2 [] (t.modify p (fun v => { v with required := atoi R })) := by
  rw [scanDef_plain_append p R _ 1 [] t (isCount_plain h) (List.cons_ne_nil _ _), scanDef,
    if_neg (by decide), if_pos rfl, List.nil_append]
  rfl

theorem foldl_register_next (p : Nat) :
    ∀ (keys : List Str) (t : Table),
      (keys.foldl (fun t k => t.register p k) t).next = t.next := by
  intro keys
  induction keys with
  | nil => intro t; rfl
  | cons k ks ih => intro t; rw [List.foldl_cons, ih, Table.register_next]

theorem foldl_register_map (p : Nat) :
    ∀ (keys : List Str) (t : Table) (a : Str),
      (keys.foldl (fun t k => t.register p k) t).map a
        = if a ∈ keys then some p else t.map a := by
  intro keys
  induction keys with
  | nil => intro t a; simp
  | cons k ks ih =>
    intro t a
    rw [List.foldl_cons, ih, Table.register_map]
    by_cases h1 : a ∈ ks
    · simp [h1]
    · by_cases h2 : a = k <;> simp [h1, h2]

theorem foldl_register_heap_of_ne (p : Nat) :
    ∀ (keys : List Str) (t : Table), (t.heap p).key ≠ [] →
      (keys.foldl (fun t k => t.register p k) t).heap = t.heap := by
  intro keys
  induction keys with
  | nil => intro t _; rfl
  | cons k ks ih =>
    intro t h
    have h1 := Table.register_heap_of_ne t p k h
    rw [List.foldl_cons, ih _ (by rw [h1]; exact h), h1]

theorem foldl_register_heap (p : Nat) (k : Str) (ks : List Str) (t : Table)
    (hk : k ≠ []) (ht : (t.heap p).key = []) (q : Nat) :
    ((k :: ks).foldl (fun t k => t.register p k) t).heap q
      = if q = p then { t.heap p with key := k } else t.heap q := by
  have h1 := Table.register_heap_of_empty t p k ht
  rw [List.foldl_cons, foldl_register_heap_of_ne p ks _ (by rw [h1, if_pos rfl]; exact hk), h1]

/-- The outer-loop iteration on a definition of the documented form: one record is
allocated, every key of the definition is bound to it, and the record ends up with
the counts as written and the first key as canonical key. -/
theorem compileDef_wellFormed (t : Table) (d : OptDef) (h : d.wellFormed = true) :
    (compileDef t d.render).next = t.next + 1 ∧
    (∀ a, (compileDef t d.render).map a = if a ∈ d.keys then some t.next else t.map a) ∧
    (∀ q, (compileDef t d.render).heap q = if q = t.next then d.record else t.heap q) := by
  obtain ⟨keys, counts⟩ := d
  simp only [OptDef.wellFormed, Bool.and_eq_true, Bool.not_eq_true', List.isEmpty_eq_false,
    List.all_eq_true] at h
  obtain ⟨⟨hne, hkeys⟩, hcounts⟩ := h
  have hne1 : keys ≠ [] := by simpa using hne
  obtain ⟨k, ks, rfl⟩ := List.exists_cons_of_ne_nil hne1
  have hk := (isKey_plain (hkeys k (List.mem_cons_self _ _))).1
  simp only [compileDef, OptDef.render, OptDef.record, OptDef.required, OptDef.optional,
    List.headD_cons]
  rcases counts with _ | ⟨R, _ | O⟩
  · simp only [renderCounts, List.append_nil]
    rw [scanDef_keys_end _ _ _ hne1 hkeys]
    refine ⟨foldl_register_next _ _ _, fun a => foldl_register_map _ _ _ a, fun q => ?_⟩
    rw [foldl_register_heap _ k ks _ hk (by simp)]
    by_cases hq : q = t.next <;> simp [hq]
  · simp only at hcounts
    simp only [renderCounts]
    rw [scanDef_keys_colon _ _ _ _ hne1 hkeys, scanDef_count_end _ R 1 _ hcounts]
    by_cases hR : R = []
    · subst hR
      rw [if_pos rfl]
      refine ⟨foldl_register_next _ _ _, fun a => foldl_register_map _ _ _ a, fun q => ?_⟩
      rw [foldl_register_heap _ k ks _ hk (by simp)]
      by_cases hq : q = t.next <;> simp [hq, decimalValue]
    · rw [if_neg hR]
      refine ⟨foldl_register_next _ _ _, fun a => foldl_register_map _ _ _ a, fun q => ?_⟩
      simp only [atEnd, Table.modify_heap]
      rw [foldl_register_heap _ k ks _ hk (by simp)]
      by_cases hq : q = t.next <;> simp [hq, atoi_count hcounts]
  · simp only [Bool.and_eq_true] at hcounts
    simp only [renderCounts]
    rw [scanDef_keys_colon _ _ _ _ hne1 hkeys, scanDef_count_colon _ R O _ hcounts.1,
      scanDef_count_end _ O 2 _ hcounts.2]
    by_cases hO : O = []
    · subst hO
      rw [if_pos rfl]
      refine ⟨foldl_register_next _ _ _, fun a => foldl_register_map _ _ _ a, fun q => ?_⟩
      simp only [Table.modify_heap]
      rw [foldl_register_heap _ k ks _ hk (by simp)]
      by_cases hq : q = t.next <;> simp [hq, atoi_count hcounts.1, decimalValue]
    · rw [if_neg hO]
      refine ⟨foldl_register_next _ _ _, fun a => foldl_register_map _ _ _ a, fun q => ?_⟩
      simp only [atEnd, Table.modify_heap]
      rw [foldl_register_heap _ k ks _ hk (by simp)]
      by_cases hq : q = t.next <;> simp [hq, atoi_count hcounts.1, atoi_count hcounts.2]

/-- The outer loop on a list of definitions of the documented form in which no key
occurs twice: aliases outside the list and records allocated before are left
alone, and every definition of the list ends up with all its keys bound to one
record, which holds what the definition says. -/
theorem foldl_compileDef_wellFormed :
    ∀ (defs : List OptDef) (t : Table),
      (∀ d ∈ defs, d.wellFormed = true) → (defs.flatMap OptDef.keys).Nodup →
      (∀ a, a ∉ defs.flatMap OptDef.keys →
        ((defs.map OptDef.render).foldl compileDef t).map a = t.map a) ∧
      (∀ q, q < t.next → ((defs.map OptDef.render).foldl compileDef t).heap q = t.heap q) ∧
      t.next ≤ ((defs.map OptDef.render).foldl compileDef t).next ∧
      (∀ d ∈ defs, ∃ p, t.next ≤ p ∧
        (∀ k ∈ d.keys, ((defs.map OptDef.render).foldl compileDef t).map k = some p) ∧
        ((defs.map OptDef.render).foldl compileDef t).heap p = d.record) := by
  intro defs
  induction defs with
  | nil =>
    intro t _ _
    exact ⟨fun _ _ => rfl, fun _ _ => rfl, Nat.le_refl _, fun d hd => absurd hd (List.not_mem_nil d)⟩
  | cons d ds ih =>
    intro t hwf hnd
    rw [List.flatMap_cons, List.nodup_append] at hnd
    obtain ⟨_, hnd2, hdisj⟩ := hnd
    obtain ⟨hnext, hmap, hheap⟩ := compileDef_wellFormed t d (hwf d (List.mem_cons_self _ _))
    obtain ⟨ih1, ih2, ih3, ih4⟩ := ih (compileDef t d.render)
      (fun x hx => hwf x (List.mem_cons_of_mem _ hx)) hnd2
    simp only [List.map_cons, List.foldl_cons]
    refine ⟨fun a ha => ?_, fun q hq => ?_, by omega, fun x hx => ?_⟩
    · rw [List.flatMap_cons, List.mem_append, not_or] at ha
      rw [ih1 a ha.2, hmap a, if_neg ha.1]
    · rw [ih2 q (by omega), hheap q, if_neg (by omega)]
    · rcases List.mem_cons.1 hx with rfl | hx
      · refine ⟨t.next, Nat.le_refl _, fun k hk => ?_, ?_⟩
        · rw [ih1 k (fun hk2 => hdisj hk hk2), hmap k, if_pos hk]
        · rw [ih2 t.next (by omega), hheap, if_pos rfl]
      · obtain ⟨p, hp, h1, h2⟩ := ih4 x hx
        exact ⟨p, by omega, h1, h2⟩

/-- Every key of a definition resolves to the record of that definition. -/
theorem compile_lookup_key {valids : Str} {defs : List OptDef}
    (hw : words valids = defs.map OptDef.render)
    (hwf : ∀ d ∈ defs, d.wellFormed = true) (hnd : (defs.flatMap OptDef.keys).Nodup)
    {d : OptDef} (hd : d ∈ defs) :
    ∃ p, (∀ k ∈ d.keys, (compile valids).map k = some p) ∧
      (compile valids).heap p = d.record ∧
      ∀ k ∈ d.keys, (compile valids).lookup k = some d.record := by
  obtain ⟨p, _, h1, h2⟩ := (foldl_compileDef_wellFormed defs Table.empty hwf hnd).2.2.2 d hd
  rw [← hw] at h1 h2
  refine ⟨p, h1, h2, fun k hk => ?_⟩
  have := h1 k hk
  unfold compile at *
  simp [Table.lookup, this, h2]

/-- Only the keys written in the format string are recognized. -/
theorem compile_lookup_inv {valids : Str} {defs : List OptDef}
    (hw : words valids = defs.map OptDef.render)
    (hwf : ∀ d ∈ defs, d.wellFormed = true) (hnd : (defs.flatMap OptDef.keys).Nodup)
    {a : Str} {va : VArgs} (h : (compile valids).lookup a = some va) :
    ∃ d ∈ defs, a ∈ d.keys ∧ va = d.record := by
  by_cases ha : a ∈ defs.flatMap OptDef.keys
  · obtain ⟨d, hd, hk⟩ := List.mem_flatMap.1 ha
    obtain ⟨p, _, _, h3⟩ := compile_lookup_key hw hwf hnd hd
    rw [h3 a hk] at h
    exact ⟨d, hd, hk, (Option.some.inj h).symm⟩
  · have := (foldl_compileDef_wellFormed defs Table.empty hwf hnd).1 a ha
    rw [← hw] at this
    have hm : (compile valids).map a = none := this
    simp [Table.lookup, hm] at h

/-! ## Flags -/

theorem takeRequired_zero (key cur : Str) (rest : List Str) (o : Opts) :
    takeRequired key 0 cur rest o = .ok cur rest o := by
  cases rest <;> simp [takeRequired]

/-- A recognized flag sets its entry to `"true"` and consumes nothing. -/
theorem iteration_flag {V : Str → Option VArgs} {k c : Str} (rest : List Str) (st : St)
    (hV : V k = some ⟨0, 0, c⟩) :
    iteration V k rest st
      = .next rest { st with opts := (st.opts.set c []).set c "true".toList } := by
  simp only [iteration, hV, and_self, if_true, takeRequired_zero, takeOptional_zero]

theorem takeRequired_nonpos (key cur : Str) (rest : List Str) (o : Opts) {req : Int}
    (h : req ≤ 0) : takeRequired key req cur rest o = .ok cur rest o := by
  have h0 : ¬ req > 0 := by omega
  cases rest <;> simp [takeRequired, h0]

/-- While `*it` is a recognized key the optional-argument loop is not entered. -/
theorem takeOptional_recognized (V : Str → Option VArgs) (key cur : Str) (rest : List Str)
    (o : Opts) (opt : Int) (h : V cur ≠ none) :
    takeOptional V key opt cur rest o = .ok rest o := by
  cases rest <;> simp [takeOptional, h]

/-- An option without required arguments consumes no token at all, whatever its
optional count: when the optional-argument loop is reached, `*it` is still the
option key itself, which is recognized. -/
theorem iteration_no_required {V : Str → Option VArgs} {k : Str} {va : VArgs}
    (rest : List Str) (st : St) (hV : V k = some va) (hreq : va.required ≤ 0) :
    ∃ o, iteration V k rest st = .next rest { st with opts := o } ∧
      (va.optional ≠ 0 → o = st.opts.set va.key []) := by
  have hk : V k ≠ none := by rw [hV]; simp
  by_cases hopt : va.optional = 0 ∧ va.required = 0
  · refine ⟨(st.opts.set va.key []).set va.key "true".toList, ?_, fun h => absurd hopt.1 h⟩
    simp only [iteration, hV, hopt, and_self, if_true, takeRequired_zero, takeOptional_zero]
  · refine ⟨st.opts.set va.key [], ?_, fun _ => rfl⟩
    simp only [iteration, hV, hopt, if_false, takeRequired_nonpos _ _ _ _ hreq,
      takeOptional_recognized V _ _ _ _ _ hk]

/-- An entry of `*opts` is left alone by a run none of whose tokens resolves to its key. -/
theorem run_opts_untouched (V : Str → Option VArgs) (x : Str) :
    ∀ toks st, (∀ tok ∈ toks, ∀ va, V tok = some va → va.key ≠ x) →
      ∀ r, run V toks st = some r → r.opts x = st.opts x := by
  refine run_induction V
    (fun toks st => (∀ tok ∈ toks, ∀ va, V tok = some va → va.key ≠ x) →
      ∀ r, run V toks st = some r → r.opts x = st.opts x) ?_ ?_ ?_
  · intro st _ r h
    rw [run_nil] at h
    cases h
    rfl
  · intro tok rest st r0 hit hx r h
    rw [run_done hit] at h
    cases h
    exact (iteration_done_facts hit).2.1 x (hx tok (List.mem_cons_self _ _))
  · intro tok rest st rest1 st1 hit hsuf ih hx r h
    rw [run_next hit] at h
    rw [ih (fun u hu => hx u (List.mem_cons_of_mem _ (hsuf.subset hu))) r h]
    exact (iteration_next_facts hit).2.2 x (hx tok (List.mem_cons_self _ _))

/-- Once a flag whose canonical key no other alias shares is set, it stays set. -/
theorem run_flag_stays (V : Str → Option VArgs) (k : Str) (hk : V k = some ⟨0, 0, k⟩)
    (hkey : ∀ a va, V a = some va → va.key = k → a = k) :
    ∀ toks st, st.opts k = some "true".toList →
      ∀ r, run V toks st = some r → r.opts k = some "true".toList := by
  refine run_induction V
    (fun toks st => st.opts k = some "true".toList →
      ∀ r, run V toks st = some r → r.opts k = some "true".toList) ?_ ?_ ?_
  · intro st hs r h
    rw [run_nil] at h
    cases h
    exact hs
  · intro tok rest st r0 hit hs r h
    rw [run_done hit] at h
    cases h
    by_cases hx : ∀ va, V tok = some va → va.key ≠ k
    · rw [(iteration_done_facts hit).2.1 k hx, hs]
    · push_neg at hx
      obtain ⟨va, h1, h2⟩ := hx
      have := hkey tok va h1 h2
      subst this
      rw [iteration_flag rest st hk] at hit
      cases hit
  · intro tok rest st rest1 st1 hit _ ih hs r h
    rw [run_next hit] at h
    apply ih _ r h
    by_cases hx : ∀ va, V tok = some va → va.key ≠ k
    · rw [(iteration_next_facts hit).2.2 k hx, hs]
    · push_neg at hx
      obtain ⟨va, h1, h2⟩ := hx
      have := hkey tok va h1 h2
      subst this
      rw [iteration_flag rest st hk] at hit
      cases hit
      exact Opts.set_same _ _ _

/-- A flag definition of a format string of the documented form: its key resolves
to a record without arguments whose canonical key is the key itself, and no other
alias resolves to a record with that canonical key. -/
theorem compile_flag {valids : Str} {defs : List OptDef}
    (hw : words valids = defs.map OptDef.render)
    (hwf : ∀ d ∈ defs, d.wellFormed = true) (hnd : (defs.flatMap OptDef.keys).Nodup)
    {k : Str} (hflag : (⟨[k], none⟩ : OptDef) ∈ defs) :
    (compile valids).lookup k = some ⟨0, 0, k⟩ ∧
    ∀ a va, (compile valids).lookup a = some va → va.key = k → a = k := by
  obtain ⟨p, _, _, h3⟩ := compile_lookup_key hw hwf hnd hflag
  refine ⟨h3 k (List.mem_singleton_self k), fun a va ha hkey => ?_⟩
  obtain ⟨d, hd, hak, rfl⟩ := compile_lookup_inv hw hwf hnd ha
  have hne : d.keys ≠ [] := List.ne_nil_of_mem hak
  obtain ⟨k1, ks, hks⟩ := List.exists_cons_of_ne_nil hne
  have hk1 : k1 = k := by simpa [OptDef.record, hks] using hkey
  have hkd : k ∈ d.keys := by rw [hks, hk1]; exact List.mem_cons_self _ _
  have hdd : d = ⟨[k], none⟩ := by
    by_contra hne2
    obtain ⟨_, hpair⟩ := List.nodup_flatMap.1 hnd
    have hsym : Symmetric (Function.onFun List.Disjoint OptDef.keys) :=
      fun _ _ h => List.Disjoint.symm h
    have hdis := List.Pairwise.forall hsym hpair hd hflag hne2
    exact hdis hkd (List.mem_singleton_self k)
  rw [hdd] at hak
  exact List.mem_singleton.1 hak

/-! ## Scanning a prefix of the tokens up to the separator -/

theorem reaches_suffix {V : Str → Option VArgs} {toks toks1 : List Str} {st st1 : St}
    (h : Reaches V toks st toks1 st1) : toks1 <:+ toks := by
  induction h with
  | here => exact List.suffix_refl _
  | step hit _ ih => exact (ih.trans (iteration_next_suffix hit)).trans (List.suffix_cons _ _)

theorem reaches_same {V : Str → Option VArgs} {toks : List Str} {st st1 : St}
    (h : Reaches V toks st toks st1) : st = st1 := by
  cases h with
  | here => rfl
  | step hit h2 =>
    have := ((reaches_suffix h2).trans (iteration_next_suffix hit)).length_le
    simp at this

/-- The required-argument loop does not look at the tokens it leaves. -/
theorem takeRequired_upto (key : Str) (s : List Str) :
    ∀ (pre : List Str) (req : Int) (cur : Str) (o : Opts) (cur1 : Str) (p1 : List Str)
      (o1 : Opts), takeRequired key req cur (pre ++ s) o = .ok cur1 (p1 ++ s) o1 →
      takeRequired key req cur pre o = .ok cur1 p1 o1 := by
  intro pre
  induction pre with
  | nil =>
    intro req cur o cur1 p1 o1 h
    have hlen := (takeRequired_suffix _ _ _ _ _ _ _ _ h).length_le
    have hp1 : p1 = [] := by
      simp only [List.nil_append, List.length_append] at hlen
      exact List.eq_nil_of_length_eq_zero (by omega)
    subst hp1
    rw [List.nil_append] at h
    cases s with
    | nil => exact h
    | cons a s =>
      unfold takeRequired at h
      split at h
      · have := (takeRequired_suffix _ _ _ _ _ _ _ _ h).length_le
        simp at this
      · rename_i hreq
        cases h
        simp [takeRequired, hreq]
  | cons a pre ih =>
    intro req cur o cur1 p1 o1 h
    rw [List.cons_append] at h
    unfold takeRequired at h ⊢
    split at h
    · rename_i hreq
      rw [if_pos hreq]
      exact ih _ _ _ _ _ _ h
    · rename_i hreq
      rw [if_neg hreq]
      injection h with h1 h2 h3
      rw [← List.cons_append] at h2
      rw [h1, List.append_cancel_right h2, h3]

/-- The optional-argument loop stops in front of the separator; on the tokens before
it alone it does the same, except that it may end by reading past the end. -/
theorem takeOptional_upto (V : Str → Option VArgs) (key : Str) (post : List Str) :
    ∀ (p1 : List Str) (opt : Int) (cur : Str) (o : Opts) (p2 : List Str) (o2 : Opts),
      takeOptional V key opt cur (p1 ++ dashDash :: post) o = .ok (p2 ++ dashDash :: post) o2 →
      takeOptional V key opt cur p1 o = .ok p2 o2 ∨
        (p2 = [] ∧ takeOptional V key opt cur p1 o = .oob o2) := by
  intro p1
  induction p1 with
  | nil =>
    intro opt cur o p2 o2 h
    have hlen := (takeOptional_suffix _ _ _ _ _ _ _ _ h).length_le
    have hp2 : p2 = [] := by
      simp only [List.nil_append, List.length_append] at hlen
      exact List.eq_nil_of_length_eq_zero (by omega)
    subst hp2
    rw [List.nil_append] at h
    unfold takeOptional at h
    rw [if_neg (by simp)] at h
    cases h
    unfold takeOptional
    split
    · exact Or.inr ⟨rfl, rfl⟩
    · exact Or.inl rfl
  | cons a p1 ih =>
    intro opt cur o p2 o2 h
    rw [List.cons_append] at h
    unfold takeOptional at h ⊢
    split at h
    · rename_i hc
      rw [if_pos hc]
      split at h
      · rename_i hva
        rw [if_pos hva]
        exact ih _ _ _ _ _ h
      · rename_i hva
        rw [if_neg hva]
        injection h with h1 h2
        rw [← List.cons_append] at h1
        rw [List.append_cancel_right h1, h2]
        exact Or.inl rfl
    · rename_i hc
      rw [if_neg hc]
      injection h with h1 h2
      rw [← List.cons_append] at h1
      rw [List.append_cancel_right h1, h2]
      exact Or.inl rfl

/-- An iteration that stops in front of the separator does the same on the tokens
before the separator alone, except that it may end the call by reading past the
end, with the same containers. -/
theorem iteration_upto {V : Str → Option VArgs} {tok : Str} {pre p post : List Str}
    {st st1 : St}
    (h : iteration V tok (pre ++ dashDash :: post) st = .next (p ++ dashDash :: post) st1) :
    iteration V tok pre st = .next p st1 ∨
      (p = [] ∧ ∃ r, iteration V tok pre st = .done r ∧ r.opts = st1.opts) := by
  unfold iteration at h ⊢
  split at h
  · split at h
    · cases h
    · rename_i hc
      rw [if_neg hc]
      split at h
      · rename_i hd
        rw [if_pos hd]
        injection h with h1 h2
        rw [List.append_cancel_right h1, h2]
        exact Or.inl rfl
      · rename_i hd
        rw [if_neg hd]
        injection h with h1 h2
        rw [List.append_cancel_right h1, h2]
        exact Or.inl rfl
  · simp only at h ⊢
    split at h
    · cases h
    · rename_i cur r1 o3 hreq
      split at h
      · cases h
      · rename_i r2 o4 hopt
        injection h with h1 h2
        subst h1
        obtain ⟨q, hq⟩ := (takeOptional_suffix _ _ _ _ _ _ _ _ hopt)
        subst hq
        rw [← List.append_assoc] at hreq hopt
        rw [takeRequired_upto _ _ _ _ _ _ _ _ _ hreq]
        simp only
        rcases takeOptional_upto V _ post _ _ _ _ _ _ hopt with h3 | ⟨h3, h4⟩
        · rw [h3, ← h2]
          exact Or.inl rfl
        · rw [h4, ← h2]
          exact Or.inr ⟨h3, _, rfl, rfl⟩

/-- If the loop on `pre ++ "--" :: post` arrives at that `--`, then the call on `pre`
alone ends with the options map the loop has on arrival. -/
theorem run_upto {V : Str → Option VArgs} {post : List Str} :
    ∀ {toks toks1 : List Str} {st st1 : St}, Reaches V toks st toks1 st1 →
      ∀ pre, toks = pre ++ toks1 → toks1 = dashDash :: post →
      ∃ r, run V pre st = some r ∧ r.opts = st1.opts := by
  intro toks toks1 st st1 h
  induction h with
  | here toks st =>
    intro pre hpre _
    have : pre = [] := by simpa using hpre
    subst this
    exact ⟨_, run_nil V st, rfl⟩
  | @step tok rest rest1 toks2 st st1 st2 hit hreach ih =>
    intro pre hpre htoks
    have hs1 := reaches_suffix hreach
    have hs2 := iteration_next_suffix hit
    cases pre with
    | nil =>
      rw [List.nil_append] at hpre
      have := (hs1.trans hs2).length_le
      rw [← hpre] at this
      simp at this
    | cons t pre =>
      rw [List.cons_append] at hpre
      injection hpre with h1 h2
      subst h1
      obtain ⟨p, hp⟩ := hs1
      subst hp
      subst h2
      subst htoks
      rcases iteration_upto hit with h3 | ⟨h3, r, h4, h5⟩
      · obtain ⟨r, hr1, hr2⟩ := ih p rfl rfl
        exact ⟨r, by rw [run_next h3]; exact hr1, hr2⟩
      · subst h3
        rw [List.nil_append] at hreach
        have := reaches_same hreach
        subst this
        exact ⟨r, run_done h4, h5⟩

/-- After the separator, unrecognized tokens other than `--` are copied to `params`. -/
theorem run_after_separator (V : Str → Option VArgs) :
    ∀ (post : List Str) (st : St), st.endOfArgs = true → (∀ t ∈ post, V t = none) →
      run V post st
        = some (.returned [] st.opts (st.params ++ post.filter (fun t => t ≠ dashDash))) := by
  intro post
  induction post with
  | nil => intro st _ _; simp [run_nil]
  | cons t post ih =>
    intro st he hV
    have ht := hV t (List.mem_cons_self _ _)
    have hrest := fun u hu => hV u (List.mem_cons_of_mem t hu)
    by_cases hd : t = dashDash
    · subst hd
      rw [run_next (iteration_separator post st ht), ih _ rfl hrest]
      simp
    · rw [run_next (iteration_param post st ht (Or.inr he) hd),
        ih { st with params := st.params ++ [t] } he hrest]
      simp [hd]

/-! ## What an option consumes -/

/-- The required-argument loop appends exactly the tokens it skips. -/
theorem takeRequired_value (key : Str) :
    ∀ (rest : List Str) (req : Int) (cur : Str) (o : Opts),
      (∀ msg o1, takeRequired key req cur rest o = .missing msg o1 →
        o1 = rest.foldl (fun o a => o.append key (a ++ [' '])) o) ∧
      (∀ cur1 rest1 o1, takeRequired key req cur rest o = .ok cur1 rest1 o1 →
        ∃ consumed, rest = consumed ++ rest1 ∧
          o1 = consumed.foldl (fun o a => o.append key (a ++ [' '])) o) := by
  intro rest
  induction rest with
  | nil =>
    intro req cur o
    unfold takeRequired
    constructor
    · intro msg o1 h; split at h <;> cases h; rfl
    · intro cur1 rest1 o1 h; split at h <;> cases h; exact ⟨[], rfl, rfl⟩
  | cons a rest ih =>
    intro req cur o
    unfold takeRequired
    constructor
    · intro msg o1 h
      split at h
      · rw [(ih _ _ _).1 _ _ h]; rfl
      · cases h
    · intro cur1 rest1 o1 h
      split at h
      · obtain ⟨c, hc, ho⟩ := (ih _ _ _).2 _ _ _ h
        exact ⟨a :: c, by rw [hc]; rfl, by rw [ho]; rfl⟩
      · cases h; exact ⟨[], rfl, rfl⟩

/-- The optional-argument loop appends exactly the tokens it skips. -/
theorem takeOptional_value (V : Str → Option VArgs) (key : Str) :
    ∀ (rest : List Str) (opt : Int) (cur : Str) (o : Opts),
      (∀ o1, takeOptional V key opt cur rest o = .oob o1 →
        o1 = rest.foldl (fun o a => o.append key (a ++ [' '])) o) ∧
      (∀ rest1 o1, takeOptional V key opt cur rest o = .ok rest1 o1 →
        ∃ consumed, rest = consumed ++ rest1 ∧
          o1 = consumed.foldl (fun o a => o.append key (a ++ [' '])) o) := by
  intro rest
  induction rest with
  | nil =>
    intro opt cur o
    unfold takeOptional
    constructor
    · intro o1 h; split at h <;> cases h; rfl
    · intro rest1 o1 h; split at h <;> cases h; exact ⟨[], rfl, rfl⟩
  | cons a rest ih =>
    intro opt cur o
    unfold takeOptional
    constructor
    · intro o1 h
      split at h
      · split at h
        · rw [(ih _ _ _).1 _ h]; rfl
        · cases h
      · cases h
    · intro rest1 o1 h
      split at h
      · split at h
        · obtain ⟨c, hc, ho⟩ := (ih _ _ _).2 _ _ h
          exact ⟨a :: c, by rw [hc]; rfl, by rw [ho]; rfl⟩
        · cases h; exact ⟨[], rfl, rfl⟩
      · cases h; exact ⟨[], rfl, rfl⟩

/-- The iteration at a recognized key: it leaves `params` alone, consumes a run
`consumed` of the tokens that follow, and replaces the entry of the canonical key
by a fresh value, `"true"` for an option without arguments and otherwise the
consumed tokens each followed by a space. It then goes on, or fails for a missing
argument, or reads past the end. -/
theorem iteration_recognized {V : Str → Option VArgs} {tok : Str} {va : VArgs}
    (rest : List Str) (st : St) (hV : V tok = some va) :
    ∃ consumed rest1, rest = consumed ++ rest1 ∧
      (iteration V tok rest st
          = .next rest1 { st with opts := st.opts.set va.key (optionValue va consumed) } ∨
        (∃ t, iteration V tok rest st
          = .done (.returned (missingArgMsg t)
              (st.opts.set va.key (optionValue va consumed)) st.params)) ∨
        iteration V tok rest st
          = .done (.outOfBounds (st.opts.set va.key (optionValue va consumed)) st.params)) := by
  unfold optionValue
  have ho2 : (if va.optional = 0 ∧ va.required = 0
        then (st.opts.set va.key []).set va.key "true".toList else st.opts.set va.key [])
      = st.opts.set va.key
          (if va.optional = 0 ∧ va.required = 0 then "true".toList else []) := by
    split
    · rw [Opts.set_set]
    · rfl
  simp only [iteration, hV, ho2]
  cases hreq : takeRequired va.key va.required tok rest
      (st.opts.set va.key (if va.optional = 0 ∧ va.required = 0 then "true".toList else []))
    with
  | missing msg o3 =>
    obtain ⟨t, ht⟩ := takeRequired_missing_form _ _ _ _ _ _ _ hreq
    have ho := (takeRequired_value _ _ _ _ _).1 _ _ hreq
    rw [foldl_append_set] at ho
    refine ⟨rest, [], by simp, Or.inr (Or.inl ⟨t, ?_⟩)⟩
    simp only [ho, ht]
  | ok cur rest1 o3 =>
    obtain ⟨c1, hc1, ho1⟩ := (takeRequired_value _ _ _ _ _).2 _ _ _ hreq
    rw [foldl_append_set] at ho1
    simp only
    cases hopt : takeOptional V va.key va.optional cur rest1 o3 with
    | oob o4 =>
      have ho := (takeOptional_value V _ _ _ _ _).1 _ hopt
      rw [ho1, foldl_append_set] at ho
      refine ⟨rest, [], by simp, Or.inr (Or.inr ?_)⟩
      simp only [ho, hc1, spaced, List.map_append, List.flatten_append, List.append_assoc]
    | ok rest2 o4 =>
      obtain ⟨c2, hc2, ho⟩ := (takeOptional_value V _ _ _ _ _).2 _ _ hopt
      rw [ho1, foldl_append_set] at ho
      refine ⟨c1 ++ c2, rest2, by rw [hc1, hc2, List.append_assoc], Or.inl ?_⟩
      simp only [ho, spaced, List.map_append, List.flatten_append, List.append_assoc]

/-- An unrecognized token leaves `*opts` alone; it ends the call or sets
`endOfArgs` or is appended to `params`. -/
theorem iteration_unrecognized {V : Str → Option VArgs} {tok : Str}
    (rest : List Str) (st : St) (hV : V tok = none) :
    iteration V tok rest st = .done (.returned (invalidOptionMsg tok) st.opts st.params) ∨
    iteration V tok rest st = .next rest { st with endOfArgs := true } ∨
    iteration V tok rest st = .next rest { st with params := st.params ++ [tok] } := by
  simp only [iteration, hV]
  split
  · exact Or.inl rfl
  · split
    · exact Or.inr (Or.inl rfl)
    · exact Or.inr (Or.inr rfl)

/-- Every token a run appends to `params` is unrecognized. -/
theorem run_params_unrecognized (V : Str → Option VArgs) :
    ∀ toks st r, run V toks st = some r →
      ∃ l, r.params = st.params ++ l ∧ ∀ x ∈ l, V x = none := by
  refine run_induction V
    (fun toks st => ∀ r, run V toks st = some r →
      ∃ l, r.params = st.params ++ l ∧ ∀ x ∈ l, V x = none) ?_ ?_ ?_
  · intro st r h
    rw [run_nil] at h
    cases h
    exact ⟨[], by simp [Result.params], by simp⟩
  · intro tok rest st r0 hit r h
    rw [run_done hit] at h
    cases h
    exact ⟨[], by simp [(iteration_done_facts hit).1], by simp⟩
  · intro tok rest st rest1 st1 hit _ ih r h
    rw [run_next hit] at h
    obtain ⟨l, hl, hun⟩ := ih r h
    cases hV : V tok with
    | none =>
      rcases iteration_unrecognized rest st hV with h1 | h1 | h1
      · rw [h1] at hit; cases hit
      · rw [h1] at hit; cases hit
        exact ⟨l, hl, hun⟩
      · rw [h1] at hit; cases hit
        refine ⟨tok :: l, by rw [hl]; simp, fun x hx => ?_⟩
        rcases List.mem_cons.1 hx with rfl | hx
        · exact hV
        · exact hun x hx
    | some va =>
      obtain ⟨c, r1, _, h1 | ⟨t, h1⟩ | h1⟩ := iteration_recognized rest st hV
      · rw [h1] at hit; cases hit
        exact ⟨l, hl, hun⟩
      · rw [h1] at hit; cases hit
      · rw [h1] at hit; cases hit

/-! ## Format strings without a colon -/

theorem wordsAux_mem :
    ∀ (s cur : Str) (w : Str), w ∈ wordsAux s cur → ∀ c ∈ w, c ∈ cur ∨ c ∈ s := by
  intro s
  induction s with
  | nil =>
    intro cur w hw c hc
    unfold wordsAux at hw
    split at hw
    · cases hw
    · rw [List.mem_singleton] at hw
      subst hw
      exact Or.inl hc
  | cons a s ih =>
    intro cur w hw c hc
    unfold wordsAux at hw
    split at hw
    · split at hw
      · rcases ih [] w hw c hc with h | h
        · cases h
        · exact Or.inr (List.mem_cons_of_mem _ h)
      · rcases List.mem_cons.1 hw with rfl | hw
        · exact Or.inl hc
        · rcases ih [] w hw c hc with h | h
          · cases h
          · exact Or.inr (List.mem_cons_of_mem _ h)
    · rcases ih _ w hw c hc with h | h
      · rcases List.mem_append.1 h with h | h
        · exact Or.inl h
        · rw [List.mem_singleton] at h
          subst h
          exact Or.inr (List.mem_cons_self _ _)
      · exact Or.inr (List.mem_cons_of_mem _ h)

/-- The characters of a definition are characters of the format string. -/
theorem words_mem {s w : Str} (hw : w ∈ words s) {c : Char} (hc : c ∈ w) : c ∈ s := by
  rcases wordsAux_mem s [] w hw c hc with h | h
  · cases h
  · exact h

theorem register_counts (t : Table) (p : Nat) (h : Str) (q : Nat) :
    ((t.register p h).heap q).required = (t.heap q).required ∧
    ((t.register p h).heap q).optional = (t.heap q).optional := by
  unfold Table.register Table.setKeyIfEmpty
  split
  · simp only [Table.modify_heap, Table.bind_heap]
    split
    · exact ⟨rfl, rfl⟩
    · exact ⟨rfl, rfl⟩
  · exact ⟨rfl, rfl⟩

/-- Without a colon the scan stays in mode 0 and never writes a count. -/
theorem scanDef_colon_free (p : Nat) :
    ∀ (cs : List Char) (hash : Str) (t : Table), ':' ∉ cs → ∀ q,
      ((scanDef p cs 0 hash t).heap q).required = (t.heap q).required ∧
      ((scanDef p cs 0 hash t).heap q).optional = (t.heap q).optional := by
  intro cs
  induction cs with
  | nil => intro hash t _ q; exact ⟨rfl, rfl⟩
  | cons c cs ih =>
    intro hash t hc q
    have hc1 : c ≠ ':' := fun e => hc (e ▸ List.mem_cons_self _ _)
    have hc2 : ':' ∉ cs := fun h => hc (List.mem_cons_of_mem _ h)
    by_cases h0 : c = ','
    · rw [scanDef, if_pos h0]
      have h1 := ih [] (t.register p hash) hc2 q
      have h2 := register_counts t p hash q
      exact ⟨h1.1.trans h2.1, h1.2.trans h2.2⟩
    · rw [scanDef, if_neg h0, if_neg hc1]
      by_cases hcs : cs = []
      · rw [if_pos hcs]
        have h1 := ih (hash ++ [c]) (atEnd p 0 (hash ++ [c]) t) hc2 q
        have h2 := register_counts t p (hash ++ [c]) q
        exact ⟨h1.1.trans h2.1, h1.2.trans h2.2⟩
      · rw [if_neg hcs]
        exact ih (hash ++ [c]) t hc2 q

theorem foldl_compileDef_colon_free :
    ∀ (ds : List Str) (t : Table), (∀ d ∈ ds, ':' ∉ d) →
      (∀ q, (t.heap q).required = 0 ∧ (t.heap q).optional = 0) →
      ∀ q, ((ds.foldl compileDef t).heap q).required = 0 ∧
        ((ds.foldl compileDef t).heap q).optional = 0 := by
  intro ds
  induction ds with
  | nil => intro t _ ht q; exact ht q
  | cons d ds ih =>
    intro t hd ht
    rw [List.foldl_cons]
    refine ih _ (fun x hx => hd x (List.mem_cons_of_mem _ hx)) (fun q => ?_)
    have h1 := scanDef_colon_free t.next d []
      { next := t.next + 1
        heap := fun q => if q = t.next then ⟨0, 0, []⟩ else t.heap q
        map := t.map } (hd d (List.mem_cons_self _ _)) q
    unfold compileDef
    rw [h1.1, h1.2]
    simp only
    split
    · exact ⟨rfl, rfl⟩
    · exact ht q

/-- In a format string without a colon every option is a flag. -/
theorem compile_colon_free {valids : Str} (hcolon : ':' ∉ valids) {a : Str} {va : VArgs}
    (h : (compile valids).lookup a = some va) : va.required = 0 ∧ va.optional = 0 := by
  have hall := foldl_compileDef_colon_free (words valids) Table.empty
    (fun d hd hc => hcolon (words_mem hd hc)) (fun _ => ⟨rfl, rfl⟩)
  unfold Table.lookup at h
  cases hm : (compile valids).map a with
  | none => rw [hm] at h; cases h
  | some p =>
    rw [hm] at h
    cases h
    exact hall p

/-- When every option is a flag, a successful run sets exactly the canonical keys of
the recognized tokens, each to `"true"`, and leaves the other entries alone. -/
theorem run_all_flags (V : Str → Option VArgs)
    (hV : ∀ a va, V a = some va → va.required = 0 ∧ va.optional = 0) :
    ∀ (toks : List Str) (st : St) (r : Result), run V toks st = some r → r.msg? = some [] →
      ∀ x, ((∃ t ∈ toks, ∃ va, V t = some va ∧ va.key = x) → r.opts x = some "true".toList) ∧
        ((¬ ∃ t ∈ toks, ∃ va, V t = some va ∧ va.key = x) → r.opts x = st.opts x) := by
  intro toks
  induction toks with
  | nil =>
    intro st r h _ x
    rw [run_nil] at h
    cases h
    exact ⟨fun ⟨t, ht, _⟩ => absurd ht (List.not_mem_nil t), fun _ => rfl⟩
  | cons tok rest ih =>
    intro st r h hmsg x
    cases hVt : V tok with
    | none =>
      have hstep : ∃ st1, iteration V tok rest st = .next rest st1 ∧ st1.opts = st.opts := by
        rcases iteration_unrecognized rest st hVt with h1 | h1 | h1
        · rw [run_done h1] at h
          cases h
          simp only [Result.msg?, Option.some.injEq] at hmsg
          exact absurd hmsg (invalidOptionMsg_ne_nil tok)
        · exact ⟨_, h1, rfl⟩
        · exact ⟨_, h1, rfl⟩
      obtain ⟨st1, h1, h2⟩ := hstep
      rw [run_next h1] at h
      obtain ⟨ha, hb⟩ := ih st1 r h hmsg x
      constructor
      · rintro ⟨t, ht, va, hva, hk⟩
        rcases List.mem_cons.1 ht with rfl | ht
        · rw [hVt] at hva; cases hva
        · exact ha ⟨t, ht, va, hva, hk⟩
      · intro hn
        rw [hb (fun ⟨t, ht, hh⟩ => hn ⟨t, List.mem_cons_of_mem _ ht, hh⟩), h2]
    | some va =>
      obtain ⟨hr0, ho0⟩ := hV tok va hVt
      have hva : va = ⟨0, 0, va.key⟩ := by
        cases va
        simp only at hr0 ho0
        simp [hr0, ho0]
      rw [hva] at hVt
      rw [run_next (iteration_flag rest st hVt)] at h
      obtain ⟨ha, hb⟩ := ih _ r h hmsg x
      by_cases hx : ∃ t ∈ rest, ∃ va, V t = some va ∧ va.key = x
      · exact ⟨fun _ => ha hx, fun hn =>
          absurd (hx.imp fun t ht => ⟨List.mem_cons_of_mem _ ht.1, ht.2⟩) hn⟩
      · rw [hb hx]
        constructor
        · rintro ⟨t, ht, vb, hvb, hk⟩
          rcases List.mem_cons.1 ht with rfl | ht
          · rw [hVt] at hvb
            cases hvb
            simp only at hk
            rw [hk]
            exact Opts.set_same _ _ _
          · exact absurd ⟨t, ht, vb, hvb, hk⟩ hx
        · intro hn
          have hne : x ≠ va.key := fun e => hn ⟨tok, List.mem_cons_self _ _, _, hVt, e.symm⟩
          show ((st.opts.set va.key []).set va.key "true".toList) x = _
          rw [Opts.set_other _ _ hne, Opts.set_other _ _ hne]

/-! ## The optional-argument loop, exactly -/

/-- Started at an unrecognized token, the optional-argument loop takes the longest
run of at most `opt` candidates; it reads past the end exactly when that run uses up
the tokens while more could be taken. -/
theorem takeOptional_exact (V : Str → Option VArgs) (key : Str) :
    ∀ (more : List Str) (opt : Int) (cur : Str) (o : Opts), V cur = none →
      takeOptional V key opt cur more o
        = if (more.takeWhile (isCandidate V)).take opt.toNat = more ∧
              (((more.takeWhile (isCandidate V)).take opt.toNat).length : Int) < opt
          then .oob (((more.takeWhile (isCandidate V)).take opt.toNat).foldl
              (fun o a => o.append key (a ++ [' '])) o)
          else .ok (more.drop ((more.takeWhile (isCandidate V)).take opt.toNat).length)
            (((more.takeWhile (isCandidate V)).take opt.toNat).foldl
              (fun o a => o.append key (a ++ [' '])) o) := by
  intro more
  induction more with
  | nil =>
    intro opt cur o hcur
    simp [takeOptional, hcur]
  | cons a more ih =>
    intro opt cur o hcur
    by_cases hA : opt > 0 ∧ a ≠ dashDash ∧ V a = none
    · obtain ⟨h1, h2, h3⟩ := hA
      have hcand : isCandidate V a = true := by simp [isCandidate, h2, h3]
      have hn : opt.toNat = (opt - 1).toNat + 1 := by omega
      have hc : (opt > 0 ∧ V cur = none ∧ a ≠ dashDash) := ⟨h1, hcur, h2⟩
      rw [takeOptional, if_pos hc, if_pos h3, ih (opt - 1) a _ h3,
        List.takeWhile_cons_of_pos hcand, hn, List.take_succ_cons]
      simp only [List.cons.injEq, true_and, List.length_cons, List.foldl_cons,
        List.drop_succ_cons, Nat.cast_add, Nat.cast_one]
      by_cases hx : List.take (opt - 1).toNat (List.takeWhile (isCandidate V) more) = more ∧
          ((List.take (opt - 1).toNat (List.takeWhile (isCandidate V) more)).length : Int)
            < opt - 1
      · rw [if_pos hx, if_pos ⟨hx.1, by omega⟩]
      · rw [if_neg hx, if_neg (fun h => hx ⟨h.1, by omega⟩)]
    · have hrun : (List.takeWhile (isCandidate V) (a :: more)).take opt.toNat = [] := by
        by_cases h1 : opt > 0
        · have hcand : isCandidate V a = false := by
            by_cases h2 : a = dashDash
            · simp [isCandidate, h2]
            · have h3 : V a ≠ none := fun h3 => hA ⟨h1, h2, h3⟩
              cases hVa : V a with
              | none => exact absurd hVa h3
              | some _ => simp [isCandidate, hVa]
          rw [List.takeWhile_cons, hcand]
          simp
        · have : opt.toNat = 0 := by omega
          rw [this]
          rfl
      rw [hrun]
      simp only [List.nil_eq, reduceCtorEq, false_and, if_false, List.length_nil,
        List.drop_zero, List.foldl_nil]
      rw [takeOptional]
      by_cases hc : opt > 0 ∧ V cur = none ∧ a ≠ dashDash
      · have h3 : V a ≠ none := fun h3 => hA ⟨hc.1, hc.2.2, h3⟩
        rw [if_pos hc, if_neg h3]
      · rw [if_neg hc]

theorem reaches_trans {V : Str → Option VArgs} {a b c : List Str} {sa sb sc : St}
    (h1 : Reaches V a sa b sb) (h2 : Reaches V b sb c sc) : Reaches V a sa c sc := by
  induction h1 with
  | here => exact h2
  | step hit _ ih => exact Reaches.step hit (ih h2)

theorem reaches_nil {V : Str → Option VArgs} {toks : List Str} {st st1 : St}
    (h : Reaches V [] st toks st1) : toks = [] :=
  List.eq_nil_of_length_eq_zero (Nat.le_zero.1 (reaches_suffix h).length_le)

theorem spaced_append (a b : List Str) : spaced (a ++ b) = spaced a ++ spaced b := by
  simp [spaced]

theorem getLast?_bind_eq (V : Str → Option VArgs) (k : Str) {args : List Str}
    (h : args ≠ []) : args.getLast?.bind V = V (args.getLastD k) := by
  rw [List.getLastD_eq_getLast?]
  cases hl : args.getLast? with
  | none => exact absurd (List.getLast?_eq_none_iff.1 hl) h
  | some x => rfl

/-- The iteration at an option that finds its required arguments `args`, followed
by the tokens `more`: it takes `args` and then the optional arguments of the rule;
it reads past the end exactly in the case described by `readsPastEnd`, and otherwise
hands the tokens after the last consumed one to the next iteration. -/
theorem iteration_exact {V : Str → Option VArgs} {k c : Str} {r o : Int}
    (args more : List Str) (st : St) (hV : V k = some ⟨r, o, c⟩)
    (hlen : (args.length : Int) = r) :
    (readsPastEnd V r o args more ∧
      iteration V k (args ++ more) st
        = .done (.outOfBounds (st.opts.set c
            (optionValue ⟨r, o, c⟩ (args ++ optionalArgs V r o args more))) st.params)) ∨
    (¬ readsPastEnd V r o args more ∧
      iteration V k (args ++ more) st
        = .next (more.drop (optionalArgs V r o args more).length)
            ⟨st.opts.set c (optionValue ⟨r, o, c⟩ (args ++ optionalArgs V r o args more)),
              st.params, st.endOfArgs⟩) := by
  have ho2 : (if o = 0 ∧ r = 0
        then (st.opts.set c []).set c "true".toList else st.opts.set c [])
      = st.opts.set c (if o = 0 ∧ r = 0 then "true".toList else []) := by
    split
    · rw [Opts.set_set]
    · rfl
  have hit : iteration V k (args ++ more) st
      = match takeOptional V c o (args.getLastD k) more
          (st.opts.set c (optionValue ⟨r, o, c⟩ args)) with
        | .oob o4 => .done (.outOfBounds o4 st.params)
        | .ok rest2 o4 => .next rest2 { st with opts := o4 } := by
    simp only [iteration, hV, ho2, takeRequired_exact c args more r k _ hlen.symm,
      foldl_append_set, optionValue]
  rw [hit]
  by_cases hrec : V (args.getLastD k) = none
  · have hargs : args ≠ [] := by
      rintro rfl
      rw [List.getLastD_nil, hV] at hrec
      cases hrec
    have hr : r ≠ 0 := by
      intro h0
      rw [h0] at hlen
      exact hargs (List.eq_nil_of_length_eq_zero (by exact_mod_cast hlen))
    have hlast : (args.getLast?.bind V).isSome = false := by
      rw [getLast?_bind_eq V k hargs, hrec]
      rfl
    have hrun : optionalArgs V r o args more
        = (more.takeWhile (isCandidate V)).take o.toNat := by
      unfold optionalArgs
      rw [if_neg]
      rw [hlast]
      simp [hr]
    rw [takeOptional_exact V c more o _ _ hrec, ← hrun, foldl_append_set]
    by_cases hpast : optionalArgs V r o args more = more ∧
        ((optionalArgs V r o args more).length : Int) < o
    · rw [if_pos hpast]
      refine Or.inl ⟨⟨hr, hlast, hpast.1, hpast.2⟩, ?_⟩
      simp only [optionValue, spaced_append, List.append_assoc]
    · rw [if_neg hpast]
      refine Or.inr ⟨fun h => hpast ⟨h.2.2.1, h.2.2.2⟩, ?_⟩
      simp only [optionValue, spaced_append, List.append_assoc]
  · have hnone : optionalArgs V r o args more = [] := by
      unfold optionalArgs
      rw [if_pos]
      by_cases hr : r = 0
      · exact Or.inl hr
      · right
        have hargs : args ≠ [] := by
          rintro rfl
          exact hr (by simpa using hlen.symm)
        rw [getLast?_bind_eq V k hargs]
        cases hv : V (args.getLastD k) with
        | none => exact absurd hv hrec
        | some _ => rfl
    have hnp : ¬ readsPastEnd V r o args more := by
      rintro ⟨hr, hlast, _, _⟩
      have hargs : args ≠ [] := by
        rintro rfl
        exact hr (by simpa using hlen.symm)
      rw [getLast?_bind_eq V k hargs] at hlast
      cases hv : V (args.getLastD k) with
      | none => exact hrec hv
      | some _ => rw [hv] at hlast; cases hlast
    rw [takeOptional_recognized V c _ more _ o hrec, hnone]
    refine Or.inr ⟨hnp, ?_⟩
    simp

/-- The separator is never taken as an optional argument. -/
theorem optionalArgs_separator (V : Str → Option VArgs) (r o : Int) (args rest : List Str) :
    optionalArgs V r o args (dashDash :: rest) = [] := by
  unfold optionalArgs
  split
  · rfl
  · simp [isCandidate]

/-- An entry of `*opts` is left alone by a run in which no token processed at the
head of the loop resolves to its key. -/
theorem run_opts_untouched_reached (V : Str → Option VArgs) (x : Str) :
    ∀ toks st,
      (∀ t1 r1 s1, Reaches V toks st (t1 :: r1) s1 → ∀ va, V t1 = some va → va.key ≠ x) →
      ∀ r, run V toks st = some r → r.opts x = st.opts x := by
  refine run_induction V
    (fun toks st =>
      (∀ t1 r1 s1, Reaches V toks st (t1 :: r1) s1 → ∀ va, V t1 = some va → va.key ≠ x) →
      ∀ r, run V toks st = some r → r.opts x = st.opts x) ?_ ?_ ?_
  · intro st _ r h
    rw [run_nil] at h
    cases h
    rfl
  · intro tok rest st r0 hit hx r h
    rw [run_done hit] at h
    cases h
    exact (iteration_done_facts hit).2.1 x (hx tok rest st (Reaches.here _ _))
  · intro tok rest st rest1 st1 hit _ ih hx r h
    rw [run_next hit] at h
    rw [ih (fun t1 r1 s1 h1 => hx t1 r1 s1 (Reaches.step hit h1)) r h]
    exact (iteration_next_facts hit).2.2 x (hx tok rest st (Reaches.here _ _))

/-! ## The specification compiler on definitions with arbitrary count fields -/

theorem isField_plain {s : Str} (h : isField s = true) : ∀ c ∈ s, c ≠ ',' ∧ c ≠ ':' := by
  simp only [isField, List.all_eq_true, Bool.and_eq_true, bne_iff_ne, ne_eq] at h
  exact h

theorem scanDef_field_end (p : Nat) (R : Str) (mode : Nat) (t : Table)
    (h : isField R = true) :
    scanDef p R mode [] t = if R = [] then t else atEnd p mode R t := by
  by_cases hR : R = []
  · subst hR; rfl
  · rw [if_neg hR, scanDef_plain_end p R mode [] t (isField_plain h) hR, List.nil_append]

theorem scanDef_field_colon (p : Nat) (R s : Str) (t : Table) (h : isField R = true) :
    scanDef p (R ++ ':' :: s) 1 [] t
      = scanDef p s 2 [] (t.modify p (fun v => { v with required := atoi R })) := by
  rw [scanDef_plain_append p R _ 1 [] t (isField_plain h) (List.cons_ne_nil _ _), scanDef,
    if_neg (by decide), if_pos rfl, List.nil_append]
  rfl

/-- The outer-loop iteration on a definition of the documented shape: one record is
allocated, every key of the definition is bound to it, and the record ends up with
`atoi` of the two fields and the first key as canonical key. -/
theorem compileDef_shaped (t : Table) (d : OptDef) (h : d.shaped = true) :
    (compileDef t d.render).next = t.next + 1 ∧
    (∀ a, (compileDef t d.render).map a = if a ∈ d.keys then some t.next else t.map a) ∧
    (∀ q, (compileDef t d.render).heap q = if q = t.next then d.compiled else t.heap q) := by
  obtain ⟨keys, counts⟩ := d
  simp only [OptDef.shaped, Bool.and_eq_true, Bool.not_eq_true', List.isEmpty_eq_false,
    List.all_eq_true] at h
  obtain ⟨⟨hne, hkeys⟩, hcounts⟩ := h
  have hne1 : keys ≠ [] := by simpa using hne
  obtain ⟨k, ks, rfl⟩ := List.exists_cons_of_ne_nil hne1
  have hk := (isKey_plain (hkeys k (List.mem_cons_self _ _))).1
  simp only [compileDef, OptDef.render, OptDef.compiled, OptDef.requiredText,
    OptDef.optionalText, List.headD_cons]
  rcases counts with _ | ⟨R, _ | O⟩
  · simp only [renderCounts, List.append_nil]
    rw [scanDef_keys_end _ _ _ hne1 hkeys]
    refine ⟨foldl_register_next _ _ _, fun a => foldl_register_map _ _ _ a, fun q => ?_⟩
    rw [foldl_register_heap _ k ks _ hk (by simp)]
    by_cases hq : q = t.next <;> simp [hq, atoi_nil]
  · simp only at hcounts
    simp only [renderCounts]
    rw [scanDef_keys_colon _ _ _ _ hne1 hkeys, scanDef_field_end _ R 1 _ hcounts]
    by_cases hR : R = []
    · subst hR
      rw [if_pos rfl]
      refine ⟨foldl_register_next _ _ _, fun a => foldl_register_map _ _ _ a, fun q => ?_⟩
      rw [foldl_register_heap _ k ks _ hk (by simp)]
      by_cases hq : q = t.next <;> simp [hq, atoi_nil]
    · rw [if_neg hR]
      refine ⟨foldl_register_next _ _ _, fun a => foldl_register_map _ _ _ a, fun q => ?_⟩
      simp only [atEnd, Table.modify_heap]
      rw [foldl_register_heap _ k ks _ hk (by simp)]
      by_cases hq : q = t.next <;> simp [hq, atoi_nil]
  · simp only [Bool.and_eq_true] at hcounts
    simp only [renderCounts]
    rw [scanDef_keys_colon _ _ _ _ hne1 hkeys, scanDef_field_colon _ R O _ hcounts.1,
      scanDef_field_end _ O 2 _ hcounts.2]
    by_cases hO : O = []
    · subst hO
      rw [if_pos rfl]
      refine ⟨foldl_register_next _ _ _, fun a => foldl_register_map _ _ _ a, fun q => ?_⟩
      simp only [Table.modify_heap]
      rw [foldl_register_heap _ k ks _ hk (by simp)]
      by_cases hq : q = t.next <;> simp [hq, atoi_nil]
    · rw [if_neg hO]
      refine ⟨foldl_register_next _ _ _, fun a => foldl_register_map _ _ _ a, fun q => ?_⟩
      simp only [atEnd, Table.modify_heap]
      rw [foldl_register_heap _ k ks _ hk (by simp)]
      by_cases hq : q = t.next <;> simp [hq]

/-- The outer loop on definitions of the documented shape, keys possibly repeated:
every key ends up bound to the record of the last definition that lists it. -/
theorem foldl_compileDef_shaped :
    ∀ (defs : List OptDef) (t : Table), (∀ d ∈ defs, d.shaped = true) →
      (∀ a, a ∉ defs.flatMap OptDef.keys →
        ((defs.map OptDef.render).foldl compileDef t).map a = t.map a) ∧
      (∀ q, q < t.next → ((defs.map OptDef.render).foldl compileDef t).heap q = t.heap q) ∧
      t.next ≤ ((defs.map OptDef.render).foldl compileDef t).next ∧
      (∀ A d C, defs = A ++ d :: C → ∀ a ∈ d.keys, a ∉ C.flatMap OptDef.keys →
        ∃ p, t.next ≤ p ∧
          ((defs.map OptDef.render).foldl compileDef t).map a = some p ∧
          ((defs.map OptDef.render).foldl compileDef t).heap p = d.compiled) := by
  intro defs
  induction defs with
  | nil =>
    intro t _
    refine ⟨fun _ _ => rfl, fun _ _ => rfl, Nat.le_refl _, fun A d C h => ?_⟩
    simp at h
  | cons d0 ds ih =>
    intro t hs
    obtain ⟨hnext, hmap, hheap⟩ := compileDef_shaped t d0 (hs d0 (List.mem_cons_self _ _))
    obtain ⟨ih1, ih2, ih3, ih4⟩ := ih (compileDef t d0.render)
      (fun x hx => hs x (List.mem_cons_of_mem _ hx))
    simp only [List.map_cons, List.foldl_cons]
    refine ⟨fun a ha => ?_, fun q hq => ?_, by omega, fun A d C hsplit a ha hC => ?_⟩
    · rw [List.flatMap_cons, List.mem_append, not_or] at ha
      rw [ih1 a ha.2, hmap a, if_neg ha.1]
    · rw [ih2 q (by omega), hheap q, if_neg (by omega)]
    · cases A with
      | nil =>
        rw [List.nil_append] at hsplit
        injection hsplit with h1 h2
        subst h1
        subst h2
        refine ⟨t.next, Nat.le_refl _, ?_, ?_⟩
        · rw [ih1 a hC, hmap a, if_pos ha]
        · rw [ih2 t.next (by omega), hheap, if_pos rfl]
      | cons a0 A =>
        rw [List.cons_append] at hsplit
        injection hsplit with h1 h2
        obtain ⟨p, hp, h3, h4⟩ := ih4 A d C h2 a ha hC
        exact ⟨p, by omega, h3, h4⟩

/-- Last write wins: a key resolves to the record of the last definition listing it. -/
theorem compile_last_wins {valids : Str} {A C : List OptDef} {d : OptDef}
    (hw : words valids = (A ++ d :: C).map OptDef.render)
    (hs : ∀ x ∈ A ++ d :: C, x.shaped = true)
    {a : Str} (ha : a ∈ d.keys) (hC : a ∉ C.flatMap OptDef.keys) :
    (compile valids).lookup a = some d.compiled := by
  obtain ⟨p, _, h1, h2⟩ :=
    (foldl_compileDef_shaped (A ++ d :: C) Table.empty hs).2.2.2 A d C rfl a ha hC
  rw [← hw] at h1 h2
  have h3 : (compile valids).map a = some p := h1
  have h4 : (compile valids).heap p = d.compiled := h2
  simp [Table.lookup, h3, h4]

theorem exists_last_listing (a : Str) :
    ∀ defs : List OptDef, a ∈ defs.flatMap OptDef.keys →
      ∃ A d C, defs = A ++ d :: C ∧ a ∈ d.keys ∧ a ∉ C.flatMap OptDef.keys := by
  intro defs
  induction defs with
  | nil => intro h; simp at h
  | cons d0 ds ih =>
    intro h
    by_cases hds : a ∈ ds.flatMap OptDef.keys
    · obtain ⟨A, d, C, h1, h2, h3⟩ := ih hds
      exact ⟨d0 :: A, d, C, by rw [h1]; rfl, h2, h3⟩
    · rw [List.flatMap_cons, List.mem_append] at h
      rcases h with h | h
      · exact ⟨[], d0, ds, rfl, h, hds⟩
      · exact absurd h hds

/-- Every recognized key is listed in a definition and resolves to the record
compiled from one that lists it. -/
theorem compile_lookup_shaped {valids : Str} {defs : List OptDef}
    (hw : words valids = defs.map OptDef.render) (hs : ∀ x ∈ defs, x.shaped = true)
    {a : Str} {va : VArgs} (h : (compile valids).lookup a = some va) :
    ∃ d ∈ defs, a ∈ d.keys ∧ va = d.compiled := by
  by_cases ha : a ∈ defs.flatMap OptDef.keys
  · obtain ⟨A, d, C, h1, h2, h3⟩ := exists_last_listing a defs ha
    subst h1
    rw [compile_last_wins hw hs h2 h3] at h
    exact ⟨d, by simp, h2, (Option.some.inj h).symm⟩
  · have := (foldl_compileDef_shaped defs Table.empty hs).1 a ha
    rw [← hw] at this
    have hm : (compile valids).map a = none := this
    simp [Table.lookup, hm] at h

/-! ## `atoi` on arbitrary fields -/

theorem digitVal_le {c : Char} (h : c.isDigit = true) : digitVal c ≤ 9 := by
  simp only [Char.isDigit, Bool.and_eq_true, decide_eq_true_eq] at h
  have h2 : c.val.toNat ≤ 57 := h.2
  unfold digitVal Char.toNat
  omega

theorem decimalValue_lt (s : Str) (h : ∀ c ∈ s, c.isDigit = true) :
    decimalValue s < 10 ^ s.length := by
  induction s with
  | nil => simp [decimalValue]
  | cons c cs ih =>
    have h1 := digitVal_le (h c (List.mem_cons_self _ _))
    have h2 := ih (fun x hx => h x (List.mem_cons_of_mem _ hx))
    have h3 : digitVal c * 10 ^ cs.length ≤ 9 * 10 ^ cs.length := Nat.mul_le_mul_right _ h1
    simp only [decimalValue, List.length_cons, pow_succ]
    omega

theorem atoiSign_subset (l : Str) : ∀ c ∈ (atoiSign l).2, c ∈ l := by
  intro c hc
  cases l with
  | nil => exact hc
  | cons a r =>
    simp only [atoiSign] at hc
    split at hc
    · exact List.mem_cons_of_mem _ hc
    · split at hc
      · exact List.mem_cons_of_mem _ hc
      · exact hc

theorem atoiSign_length (l : Str) : (atoiSign l).2.length ≤ l.length := by
  cases l with
  | nil => exact Nat.le_refl _
  | cons a r =>
    simp only [atoiSign]
    split
    · simp
    · split <;> simp

theorem atoiSign_no_minus {l : Str} (h : '-' ∉ l) : (atoiSign l).1 = false := by
  cases l with
  | nil => rfl
  | cons a r =>
    have ha : a ≠ '-' := fun e => h (e ▸ List.mem_cons_self _ _)
    simp only [atoiSign, if_neg ha]
    split <;> rfl

/-- A field without a minus sign and of at most nine characters gives a count that
is not negative. -/
theorem atoi_nonneg {s : Str} (hminus : '-' ∉ s) (hlen : s.length ≤ 9) : 0 ≤ atoi s := by
  have hsuf := List.dropWhile_suffix (l := s) isSpace
  have h1 : '-' ∉ s.dropWhile isSpace := fun h => hminus (hsuf.subset h)
  have h2 : (atoiSign (s.dropWhile isSpace)).2.length ≤ 9 :=
    Nat.le_trans (atoiSign_length _) (Nat.le_trans hsuf.length_le hlen)
  have h3 : ((atoiSign (s.dropWhile isSpace)).2.takeWhile Char.isDigit).length ≤ 9 :=
    Nat.le_trans (List.takeWhile_sublist _).length_le h2
  have h4 := decimalValue_lt ((atoiSign (s.dropWhile isSpace)).2.takeWhile Char.isDigit)
    (fun c hc => List.mem_takeWhile_imp hc)
  have h5 : 10 ^ ((atoiSign (s.dropWhile isSpace)).2.takeWhile Char.isDigit).length
      ≤ 10 ^ 9 := Nat.pow_le_pow_right (by decide) h3
  have h6 : decimalValue ((atoiSign (s.dropWhile isSpace)).2.takeWhile Char.isDigit)
      < 2 ^ 31 := by
    have : (10 : Nat) ^ 9 < 2 ^ 31 := by decide
    omega
  unfold atoi
  simp only [atoiSign_no_minus h1, foldl_digits, zero_mul, zero_add, Bool.false_eq_true,
    if_false]
  rw [clamp_wrap_of_lt _ h6]
  exact Int.ofNat_nonneg _

/-- A field without any digit gives the count 0. -/
theorem atoi_no_digit {s : Str} (h : ∀ c ∈ s, c.isDigit = false) : atoi s = 0 := by
  have hsuf := List.dropWhile_suffix (l := s) isSpace
  have h1 : (atoiSign (s.dropWhile isSpace)).2.takeWhile Char.isDigit = [] := by
    cases hb : (atoiSign (s.dropWhile isSpace)).2 with
    | nil => rfl
    | cons c r =>
      have hc : c ∈ s := hsuf.subset (atoiSign_subset _ c (by rw [hb]; exact List.mem_cons_self _ _))
      rw [List.takeWhile_cons, h c hc]
      rfl
  unfold atoi
  simp only [h1, List.foldl_nil]
  split <;> decide

/-! ## Which tokens are stored as positional parameters -/

/-- An iteration that continues either leaves `params` alone, or it is the iteration
at a positional token (unrecognized, not `--`, and without a leading dash unless
`endOfArgs` is set): that token is appended and the token after it is read next. -/
theorem iteration_next_params {V : Str → Option VArgs} {tok : Str} {rest rest1 : List Str}
    {st st1 : St} (h : iteration V tok rest st = .next rest1 st1) :
    st1.params = st.params ∨
    (st1.params = st.params ++ [tok] ∧ rest1 = rest ∧ V tok = none ∧ tok ≠ dashDash ∧
      (tok.head? ≠ some '-' ∨ st.endOfArgs = true)) := by
  unfold iteration at h
  split at h
  · rename_i hV
    split at h
    · cases h
    · rename_i hc
      split at h
      · cases h
        exact Or.inl rfl
      · rename_i hs
        cases h
        refine Or.inr ⟨rfl, rfl, hV, hs, ?_⟩
        by_cases hd : tok.head? = some '-'
        · refine Or.inr ?_
          cases he : st.endOfArgs with
          | true => rfl
          | false => exact absurd ⟨hd, hs, he⟩ hc
        · exact Or.inl hd
  · simp only at h
    split at h
    · cases h
    · split at h
      · cases h
      · cases h
        exact Or.inl rfl

/-- Between two loop heads the tokens read form a prefix of the tokens, and what was
appended to `params` is a subsequence of that prefix. -/
theorem reaches_params {V : Str → Option VArgs} {toks toks1 : List Str} {st st1 : St}
    (h : Reaches V toks st toks1 st1) :
    ∃ pre l, toks = pre ++ toks1 ∧ st1.params = st.params ++ l ∧ l.Sublist pre := by
  induction h with
  | here => exact ⟨[], [], rfl, by simp, List.Sublist.refl _⟩
  | @step tok rest rest1 toks2 st st1 st2 hit _ ih =>
    obtain ⟨pre1, l1, h1, h2, h3⟩ := ih
    obtain ⟨q, hq⟩ := iteration_next_suffix hit
    have hsub : l1.Sublist (q ++ pre1) := h3.trans (List.sublist_append_right _ _)
    refine ⟨tok :: (q ++ pre1), ?_⟩
    rcases (iteration_next_facts hit).1 with hp | hp
    · refine ⟨l1, ?_, by rw [h2, hp], hsub.trans (List.sublist_cons_self _ _)⟩
      rw [← hq, h1]
      simp
    · refine ⟨tok :: l1, ?_, by rw [h2, hp]; simp, hsub.cons₂ tok⟩
      rw [← hq, h1]
      simp

/-- Every arrival of the loop at a positional token stores that occurrence: the
final `params` is what the loop had stored before it, then the token, then a
subsequence of the tokens after it. -/
theorem run_keeps_arrival {V : Str → Option VArgs} {toks post : List Str} {t : Str}
    {st st1 : St} {r : Result} (hreach : Reaches V toks st (t :: post) st1)
    (hV : V t = none) (hs : t ≠ dashDash)
    (hd : t.head? ≠ some '-' ∨ st1.endOfArgs = true) (hr : run V toks st = some r) :
    ∃ pre l0 l, toks = pre ++ t :: post ∧ st1.params = st.params ++ l0 ∧ l0.Sublist pre ∧
      r.params = st1.params ++ t :: l ∧ l.Sublist post := by
  obtain ⟨pre, l0, h1, h2, h3⟩ := reaches_params hreach
  rw [run_of_reaches hreach, run_next (iteration_param post st1 hV hd hs)] at hr
  obtain ⟨l, hl, hsub⟩ := run_params_sublist V _ _ r hr
  refine ⟨pre, l0, l, h1, h2, h3, ?_, hsub⟩
  rw [hl]
  simp

/-- Every entry of the final `params` was stored by an arrival of the loop at a
positional token: the entries before it are what the loop had stored on arrival,
and the entries after it come from the tokens after that occurrence. -/
theorem run_params_origin (V : Str → Option VArgs) :
    ∀ toks st r, run V toks st = some r →
      ∀ p1 x p2, r.params = st.params ++ p1 ++ x :: p2 →
        ∃ pre post st1, toks = pre ++ x :: post ∧ Reaches V toks st (x :: post) st1 ∧
          V x = none ∧ x ≠ dashDash ∧ (x.head? ≠ some '-' ∨ st1.endOfArgs = true) ∧
          st1.params = st.params ++ p1 ∧ p1.Sublist pre ∧ p2.Sublist post := by
  refine run_induction V
    (fun toks st => ∀ r, run V toks st = some r →
      ∀ p1 x p2, r.params = st.params ++ p1 ++ x :: p2 →
        ∃ pre post st1, toks = pre ++ x :: post ∧ Reaches V toks st (x :: post) st1 ∧
          V x = none ∧ x ≠ dashDash ∧ (x.head? ≠ some '-' ∨ st1.endOfArgs = true) ∧
          st1.params = st.params ++ p1 ∧ p1.Sublist pre ∧ p2.Sublist post) ?_ ?_ ?_
  · intro st r h p1 x p2 hp
    rw [run_nil] at h
    cases h
    have := congrArg List.length hp
    simp [Result.params] at this
  · intro tok rest st r0 hit r h p1 x p2 hp
    rw [run_done hit] at h
    cases h
    rw [(iteration_done_facts hit).1] at hp
    have := congrArg List.length hp
    simp at this
  · intro tok rest st rest1 st1 hit hsuf ih r h p1 x p2 hp
    have hrun := h
    rw [run_next hit] at h
    obtain ⟨q, hq⟩ := hsuf
    rcases iteration_next_params hit with hsame | ⟨happ, hrest, hV, hs, hd⟩
    · obtain ⟨pre1, post, st2, h1, h2, h3, h4, h5, h6, h7, h8⟩ :=
        ih r h p1 x p2 (by rw [hsame]; exact hp)
      refine ⟨tok :: (q ++ pre1), post, st2, ?_, Reaches.step hit h2, h3, h4, h5, ?_, ?_, h8⟩
      · rw [← hq, h1]
        simp
      · rw [h6, hsame]
      · exact (h7.trans (List.sublist_append_right _ _)).trans (List.sublist_cons_self _ _)
    · subst hrest
      obtain ⟨l, hl, hsub⟩ := run_params_sublist V _ _ r h
      have hl1 : p1 ++ x :: p2 = tok :: l := by
        rw [hl, happ, List.append_assoc, List.append_assoc] at hp
        exact (List.append_cancel_left hp).symm
      cases p1 with
      | nil =>
        simp only [List.nil_append, List.cons.injEq] at hl1
        obtain ⟨rfl, rfl⟩ := hl1
        exact ⟨[], rest1, st, rfl, Reaches.here _ _, hV, hs, hd, by simp,
          List.Sublist.refl _, hsub⟩
      | cons y p1 =>
        simp only [List.cons_append, List.cons.injEq] at hl1
        obtain ⟨rfl, hl2⟩ := hl1
        obtain ⟨pre1, post, st2, h1, h2, h3, h4, h5, h6, h7, h8⟩ :=
          ih r h p1 x p2 (by rw [hl, happ, ← hl2]; simp)
        refine ⟨y :: pre1, post, st2, by rw [h1]; rfl, Reaches.step hit h2, h3, h4, h5, ?_,
          h7.cons₂ y, h8⟩
        rw [h6, happ]
        simp

/-! ## Claims -/

/-- C1. Required arguments are consumed unconditionally and space-terminated: when
`k` resolves to an option with canonical key `c`, required count `r ≥ 1` and
optional count `0`, the call on the tokens `k, a1, ..., ar` (the `ai` arbitrary)
started with empty containers returns the empty string, leaves `params` empty and
leaves `opts` with the single entry `c ↦ a1 ++ " " ++ ... ++ ar ++ " "`. -/
theorem C1_required_arguments_consumed (valids k c : Str) (r : Int) (args : List Str)
    (hk : (compile valids).lookup k = some ⟨r, 0, c⟩) (hr : 1 ≤ r)
    (hlen : (args.length : Int) = r) :
    getOpts valids (k :: args) Opts.empty []
      = some (.returned [] (Opts.empty.set c (spaced args)) []) := by
  have hne : r ≠ 0 := by omega
  have hreq := takeRequired_exact c args [] r k (Opts.empty.set c []) hlen.symm
  rw [List.append_nil] at hreq
  have hit : iteration (compile valids).lookup k args ⟨Opts.empty, [], false⟩
      = .next [] ⟨Opts.empty.set c (spaced args), [], false⟩ := by
    simp only [iteration, hk, hne, and_false, if_false, hreq, takeOptional_zero,
      foldl_append_set, List.nil_append]
  show run (compile valids).lookup (k :: args) ⟨Opts.empty, [], false⟩ = _
  rw [run_next hit, run_nil]

/-- C1, at the format string `-x:2` and the tokens `-x -t --`. -/
theorem C1_required_arguments_consumed_witness :
    getOpts "-x:2".toList ["-x".toList, "-t".toList, "--".toList] Opts.empty []
      = some (.returned [] (Opts.empty.set "-x".toList (spaced ["-t".toList, "--".toList])) []) :=
  C1_required_arguments_consumed "-x:2".toList "-x".toList "-x".toList 2
    ["-t".toList, "--".toList] (by decide) (by decide) (by decide)

/-- C2 (the code at the example of the doc comment). With the format string
`-e,--example:0:1 -t -x:1` and the tokens `-t -e hello foo`, the option `-e`
(required 0, optional 1) consumes nothing: its value is the empty string and
`hello` is stored in `params` together with `foo`. -/
theorem C2_optional_not_consumed_after_zero_required :
    ∃ o, getOpts "-e,--example:0:1 -t -x:1".toList
        ["-t".toList, "-e".toList, "hello".toList, "foo".toList] Opts.empty []
        = some (.returned [] o ["hello".toList, "foo".toList])
      ∧ o "-e".toList = some [] ∧ o "-t".toList = some "true".toList :=
  ⟨_, rfl, by decide, by decide⟩

/-- C3. Alias resolution of the spec compiler: when the whitespace-separated
definitions of the format string all have the form `k1,...,kn[:R[:O]]` (keys
non-empty and free of `,` and `:`, `R` and `O` decimal and within `int`) and no key
occurs twice, every key of a definition is bound to one and the same record, whose
canonical key is `k1`, whose required count is `R` and whose optional count is `O`
(each `0` when omitted). -/
theorem C3_alias_resolution (valids : Str) (defs : List OptDef)
    (hw : words valids = defs.map OptDef.render)
    (hwf : ∀ d ∈ defs, d.wellFormed = true)
    (hnd : (defs.flatMap OptDef.keys).Nodup) :
    ∀ d ∈ defs, ∃ p, (∀ k ∈ d.keys, (compile valids).map k = some p) ∧
      (compile valids).heap p = ⟨d.required, d.optional, d.keys.headD []⟩ ∧
      ∀ k ∈ d.keys,
        (compile valids).lookup k = some ⟨d.required, d.optional, d.keys.headD []⟩ :=
  fun _ hd => compile_lookup_key hw hwf hnd hd

/-- C3 at the format string of the doc comment, `-e,--example:0:1 -t -x:1`, and its
first definition: `-e` and `--example` are bound to one record, with canonical key
`-e`, required count 0 and optional count 1. -/
theorem C3_alias_resolution_witness :
    ∃ p, (∀ k ∈ ["-e".toList, "--example".toList],
          (compile "-e,--example:0:1 -t -x:1".toList).map k = some p) ∧
        (compile "-e,--example:0:1 -t -x:1".toList).heap p = ⟨0, 1, "-e".toList⟩ ∧
        ∀ k ∈ ["-e".toList, "--example".toList],
          (compile "-e,--example:0:1 -t -x:1".toList).lookup k = some ⟨0, 1, "-e".toList⟩ :=
  C3_alias_resolution "-e,--example:0:1 -t -x:1".toList
    [⟨["-e".toList, "--example".toList], some ("0".toList, some "1".toList)⟩,
      ⟨["-t".toList], none⟩, ⟨["-x".toList], some ("1".toList, none)⟩]
    (by decide) (by decide) (by decide)
    ⟨["-e".toList, "--example".toList], some ("0".toList, some "1".toList)⟩ (by decide)

/-- C4. MissingArgument when the required arguments run out: on tokens
`P ++ [k] ++ A`, where the tokens of `P` are unrecognized and have no leading dash,
`k` is recognized with required count `r ≥ 1` and `A` has fewer than `r` tokens,
the call returns the non-empty string `tok ++ " requires an argument"`, `tok` being
the last token of `[k] ++ A`; `params` holds the tokens of `P`. -/
theorem C4_missing_argument (valids : Str) (P : List Str) (k : Str) (A : List Str)
    (va : VArgs) (opts0 : Opts) (params0 : List Str)
    (hP : ∀ t ∈ P, (compile valids).lookup t = none ∧ t.head? ≠ some '-')
    (hk : (compile valids).lookup k = some va) (hr : 1 ≤ va.required)
    (hA : (A.length : Int) < va.required) :
    ∃ o, getOpts valids (P ++ k :: A) opts0 params0
        = some (.returned (A.getLastD k ++ " requires an argument".toList) o (params0 ++ P))
      ∧ A.getLastD k ∈ k :: A
      ∧ A.getLastD k ++ " requires an argument".toList ≠ [] := by
  have hreach := reaches_positional (compile valids).lookup P (k :: A) ⟨opts0, params0, false⟩ hP
  have hne : va.required ≠ 0 := by omega
  refine ⟨A.foldl (fun o a => o.append va.key (a ++ [' '])) (opts0.set va.key []),
    ?_, ?_, missingArgMsg_ne_nil _⟩
  · show run (compile valids).lookup (P ++ k :: A) ⟨opts0, params0, false⟩ = _
    rw [run_of_reaches hreach]
    apply run_done
    simp only [iteration, hk, hne, and_false, if_false, takeRequired_short _ A _ k _ hA]
    rfl
  · cases A with
    | nil => simp [List.getLastD]
    | cons a A =>
      have := List.getLast_mem (List.cons_ne_nil a A)
      simp only [List.getLastD_cons]
      rw [← List.getLast_eq_getLastD]
      exact List.mem_cons_of_mem _ this

/-- C4 at the format string `-x:2` and the tokens `p -x a`. -/
theorem C4_missing_argument_witness :
    ∃ o, getOpts "-x:2".toList (["p".toList] ++ "-x".toList :: ["a".toList]) Opts.empty []
        = some (.returned
            (["a".toList].getLastD "-x".toList ++ " requires an argument".toList) o
            ([] ++ ["p".toList]))
      ∧ ["a".toList].getLastD "-x".toList ∈ "-x".toList :: ["a".toList]
      ∧ ["a".toList].getLastD "-x".toList ++ " requires an argument".toList ≠ [] :=
  C4_missing_argument "-x:2".toList ["p".toList] "-x".toList ["a".toList]
    ⟨2, 0, "-x".toList⟩ Opts.empty [] (by decide) (by decide) (by decide) (by decide)

/-- C5 (the code at the example of the claim). With the format string `-x:2` and the
tokens `-x a` the returned string is `a requires an argument`: it names the last
consumed argument and does not contain the option token `-x`. -/
theorem C5_message_names_last_consumed_token :
    ∃ o, getOpts "-x:2".toList ["-x".toList, "a".toList] Opts.empty []
        = some (.returned "a requires an argument".toList o [])
      ∧ "a requires an argument".toList ≠ "-x requires an argument".toList :=
  ⟨_, rfl, by decide⟩

/-- C6. InvalidOption on an unrecognized dash token: if the loop arrives at a token
`t` that is not a recognized key, starts with `-`, is not `--`, and `endOfArgs` is
still unset, the call returns exactly `invalid option -- "t"`, with both containers
as they were on arrival; the iteration at `t` ends the call whatever follows `t`. -/
theorem C6_invalid_option (valids : Str) (tokens : List Str) (opts0 : Opts)
    (params0 : List Str) (t : Str) (post : List Str) (st : St)
    (hreach : Reaches (compile valids).lookup tokens ⟨opts0, params0, false⟩ (t :: post) st)
    (hflag : st.endOfArgs = false)
    (hV : (compile valids).lookup t = none) (hdash : t.head? = some '-')
    (hsep : t ≠ dashDash) :
    getOpts valids tokens opts0 params0
        = some (.returned ("invalid option -- \"".toList ++ t ++ "\"".toList) st.opts st.params)
      ∧ ∀ post1, iteration (compile valids).lookup t post1 st
          = .done (.returned ("invalid option -- \"".toList ++ t ++ "\"".toList)
              st.opts st.params) := by
  have hit := fun post1 =>
    @iteration_invalid (compile valids).lookup t post1 st hV hdash hsep hflag
  refine ⟨?_, hit⟩
  show run (compile valids).lookup tokens ⟨opts0, params0, false⟩ = _
  rw [run_of_reaches hreach, run_done (hit post)]
  rfl

/-- C6 at the format string `-t` and the tokens `a -z b`. -/
theorem C6_invalid_option_witness :
    getOpts "-t".toList ["a".toList, "-z".toList, "b".toList] Opts.empty []
        = some (.returned ("invalid option -- \"".toList ++ "-z".toList ++ "\"".toList)
            Opts.empty ["a".toList])
      ∧ ∀ post1, iteration (compile "-t".toList).lookup "-z".toList post1
            ⟨Opts.empty, ["a".toList], false⟩
          = .done (.returned ("invalid option -- \"".toList ++ "-z".toList ++ "\"".toList)
              Opts.empty ["a".toList]) :=
  C6_invalid_option "-t".toList ["a".toList, "-z".toList, "b".toList] Opts.empty []
    "-z".toList ["b".toList] ⟨Opts.empty, ["a".toList], false⟩
    (Reaches.step (iteration_param _ _ (by decide) (Or.inl (by decide)) (by decide))
      (Reaches.here _ _))
    rfl (by decide) (by decide) (by decide)

/-- C7. After the separator no InvalidOption can occur: if the loop arrives at an
unrecognized `--`, the call ends without returning an invalid-option string, and
every later token at which the loop arrives that is neither a recognized key nor
`--` is appended to `params`, with or without a leading dash. -/
theorem C7_no_invalid_option_after_separator (valids : Str) (tokens : List Str)
    (opts0 : Opts) (params0 : List Str) (post : List Str) (st : St)
    (hreach :
      Reaches (compile valids).lookup tokens ⟨opts0, params0, false⟩ (dashDash :: post) st)
    (hsep : (compile valids).lookup dashDash = none) :
    (∃ r, getOpts valids tokens opts0 params0 = some r ∧
        ∀ t, r.msg? ≠ some (invalidOptionMsg t)) ∧
    (∀ t post1 st1,
        Reaches (compile valids).lookup post { st with endOfArgs := true } (t :: post1) st1 →
        (compile valids).lookup t = none → t ≠ dashDash →
        iteration (compile valids).lookup t post1 st1
          = .next post1 { st1 with params := st1.params ++ [t] }) := by
  constructor
  · obtain ⟨r, hr⟩ := run_isSome (compile valids).lookup post { st with endOfArgs := true }
    refine ⟨r, ?_, run_no_invalid_after_separator _ _ _ rfl r hr⟩
    show run (compile valids).lookup tokens ⟨opts0, params0, false⟩ = _
    rw [run_of_reaches hreach, run_next (iteration_separator post st hsep), hr]
  · intro t post1 st1 h1 hV hne
    exact iteration_param post1 st1 hV (Or.inr (reaches_endOfArgs h1 rfl)) hne

/-- C7 at the format string `-t` and the tokens `-t -- -z`: the call succeeds with
the flag `-t` set to `true` and `params = ["-z"]`. -/
theorem C7_no_invalid_option_after_separator_witness :
    ((∃ r, getOpts "-t".toList ["-t".toList, "--".toList, "-z".toList] Opts.empty [] = some r ∧
        ∀ t, r.msg? ≠ some (invalidOptionMsg t)) ∧
    (∀ t post1 st1,
        Reaches (compile "-t".toList).lookup ["-z".toList]
          { ((⟨(Opts.empty.set "-t".toList []).set "-t".toList "true".toList, [], false⟩ : St))
            with endOfArgs := true } (t :: post1) st1 →
        (compile "-t".toList).lookup t = none → t ≠ dashDash →
        iteration (compile "-t".toList).lookup t post1 st1
          = .next post1 { st1 with params := st1.params ++ [t] })) ∧
    (∃ o, getOpts "-t".toList ["-t".toList, "--".toList, "-z".toList] Opts.empty []
        = some (.returned [] o ["-z".toList]) ∧ o "-t".toList = some "true".toList) :=
  ⟨C7_no_invalid_option_after_separator "-t".toList
      ["-t".toList, "--".toList, "-z".toList] Opts.empty [] ["-z".toList]
      ⟨(Opts.empty.set "-t".toList []).set "-t".toList "true".toList, [], false⟩
      (Reaches.step
        (show iteration _ _ _ _ = Step.next ["--".toList, "-z".toList] _ from rfl)
        (Reaches.here _ _)) (by decide),
    ⟨_, rfl, by decide⟩⟩

/-- C8 as stated fails. With the format string `-t`, the tokens `-- -t` (`pre` empty,
`post = ["-t"]`) give the flag `-t` the value `true`, although scanning `pre` alone
leaves the options map empty: a recognized key after `--` is still processed as an
option. -/
theorem C8_recognized_key_after_separator_is_option :
    (∃ o p, getOpts "-t".toList ([] ++ dashDash :: ["-t".toList]) Opts.empty []
        = some (.returned [] o p) ∧ o "-t".toList = some "true".toList ∧ p = []) ∧
    (∃ o p, getOpts "-t".toList [] Opts.empty []
        = some (.returned [] o p) ∧ o "-t".toList = none) :=
  ⟨⟨_, _, rfl, by decide, rfl⟩, ⟨_, _, rfl, by decide⟩⟩

/-- C8, amended. After the end-of-options marker no unrecognized token is treated as
an option: on tokens `pre ++ ["--"] ++ post` in which that `--` is unrecognized and
the loop arrives at it, and in which no token of `post` is a recognized key, the
call on `pre` alone ends, and the call on the whole sequence returns the empty
string with the options map of the call on `pre` alone; the tokens of `post` other
than `--` are appended to `params`, with or without leading dashes. -/
theorem C8_after_separator (valids : Str) (pre post : List Str) (opts0 : Opts)
    (params0 : List Str) (st : St)
    (hreach : Reaches (compile valids).lookup (pre ++ dashDash :: post)
      ⟨opts0, params0, false⟩ (dashDash :: post) st)
    (hsep : (compile valids).lookup dashDash = none)
    (hpost : ∀ t ∈ post, (compile valids).lookup t = none) :
    ∃ r, getOpts valids pre opts0 params0 = some r ∧
      getOpts valids (pre ++ dashDash :: post) opts0 params0
        = some (.returned [] r.opts (st.params ++ post.filter (fun t => t ≠ dashDash))) := by
  obtain ⟨r, hr1, hr2⟩ := run_upto hreach pre rfl rfl
  refine ⟨r, hr1, ?_⟩
  show run (compile valids).lookup (pre ++ dashDash :: post) ⟨opts0, params0, false⟩ = _
  rw [run_of_reaches hreach, run_next (iteration_separator post st hsep),
    run_after_separator _ post _ rfl hpost, hr2]

/-- C8, amended, at the format string `-t` and the tokens `-t -- -z -- a`. -/
theorem C8_after_separator_witness :
    ∃ r, getOpts "-t".toList ["-t".toList] Opts.empty [] = some r ∧
      getOpts "-t".toList (["-t".toList] ++ dashDash :: ["-z".toList, dashDash, "a".toList])
          Opts.empty []
        = some (.returned [] r.opts
            ([] ++ ["-z".toList, dashDash, "a".toList].filter (fun t => t ≠ dashDash))) :=
  C8_after_separator "-t".toList ["-t".toList] ["-z".toList, dashDash, "a".toList]
    Opts.empty [] ⟨(Opts.empty.set "-t".toList []).set "-t".toList "true".toList, [], false⟩
    (Reaches.step (iteration_flag _ _ (by decide)) (Reaches.here _ _)) (by decide) (by decide)

/-- C9. Positional parameters preserve input order, with duplicates preserved and
nothing invented or reordered. Started with empty `params`, every call ends, and the
`params` it leaves is a subsequence of the tokens, made of exactly the occurrences
at which the loop arrives as positional tokens (unrecognized, not `--`, without a
leading dash unless `endOfArgs` is set):
every such arrival stores its occurrence, after what the loop had stored from the
tokens before it and before what is stored from the tokens after it; and every
entry of `params` was stored by such an arrival, the entries before it being what
the loop had stored on arrival. -/
theorem C9_params_subsequence (valids : Str) (tokens : List Str) (opts0 : Opts) :
    ∃ r, getOpts valids tokens opts0 [] = some r ∧ r.params.Sublist tokens ∧
      (∀ t post st,
        Reaches (compile valids).lookup tokens ⟨opts0, [], false⟩ (t :: post) st →
        (compile valids).lookup t = none → t ≠ dashDash →
        (t.head? ≠ some '-' ∨ st.endOfArgs = true) →
        ∃ pre l, tokens = pre ++ t :: post ∧ st.params.Sublist pre ∧
          r.params = st.params ++ t :: l ∧ l.Sublist post) ∧
      (∀ p1 x p2, r.params = p1 ++ x :: p2 →
        ∃ pre post st, tokens = pre ++ x :: post ∧
          Reaches (compile valids).lookup tokens ⟨opts0, [], false⟩ (x :: post) st ∧
          (compile valids).lookup x = none ∧ x ≠ dashDash ∧
          (x.head? ≠ some '-' ∨ st.endOfArgs = true) ∧
          st.params = p1 ∧ p1.Sublist pre ∧ p2.Sublist post) := by
  obtain ⟨r, hr⟩ := getOpts_terminates valids tokens opts0 []
  obtain ⟨l, hl, hsub⟩ := run_params_sublist _ _ _ r hr
  refine ⟨r, hr, ?_, fun t post st hreach hV hs hd => ?_, fun p1 x p2 hp => ?_⟩
  · rw [hl]
    simpa using hsub
  · obtain ⟨pre, l0, l1, h1, h2, h3, h4, h5⟩ := run_keeps_arrival hreach hV hs hd hr
    refine ⟨pre, l1, h1, ?_, h4, h5⟩
    rw [h2]
    simpa using h3
  · obtain ⟨pre, post, st1, h1, h2, h3, h4, h5, h6, h7, h8⟩ :=
      run_params_origin _ _ _ r hr p1 x p2 (by rw [hp]; simp)
    exact ⟨pre, post, st1, h1, h2, h3, h4, h5, by simpa using h6, h7, h8⟩

/-- C9 at the format string `-t` and the tokens `a a -t b a`: the stored parameters
are `a a b a`, both leading occurrences of `a` and the one after `b` included. -/
theorem C9_params_subsequence_witness :
    ∃ r, getOpts "-t".toList
          ["a".toList, "a".toList, "-t".toList, "b".toList, "a".toList] Opts.empty []
        = some r ∧
      r.params.Sublist ["a".toList, "a".toList, "-t".toList, "b".toList, "a".toList] ∧
      r.msg? = some [] ∧
      r.params = ["a".toList, "a".toList, "b".toList, "a".toList] := by
  obtain ⟨r, hr, hsub, _, _⟩ := C9_params_subsequence "-t".toList
    ["a".toList, "a".toList, "-t".toList, "b".toList, "a".toList] Opts.empty
  have e : getOpts "-t".toList
      ["a".toList, "a".toList, "-t".toList, "b".toList, "a".toList] Opts.empty []
      = some (.returned [] _ ["a".toList, "a".toList, "b".toList, "a".toList]) := rfl
  rw [e] at hr
  cases hr
  exact ⟨_, e, hsub, rfl, rfl⟩

/-- C10 as stated fails. The format string `-x:1 -t` has the documented form, no key
twice, and the flag definition `-t`; on the tokens `-x -t` the call succeeds, the
token `-t` occurs in the input, and yet `-t` is absent from the options map,
because it was consumed as the required argument of `-x`. -/
theorem C10_flag_consumed_as_argument :
    words "-x:1 -t".toList
        = [(⟨["-x".toList], some ("1".toList, none)⟩ : OptDef), ⟨["-t".toList], none⟩].map
            OptDef.render ∧
    "-t".toList ∈ ["-x".toList, "-t".toList] ∧
    ∃ o, getOpts "-x:1 -t".toList ["-x".toList, "-t".toList] Opts.empty []
        = some (.returned [] o []) ∧
      o "-t".toList = none ∧ o "-x".toList = some "-t ".toList :=
  ⟨by decide, by decide, _, rfl, by decide, by decide⟩

/-- C10, amended. For a format string of the documented form with no key twice and
a flag definition `k` (a single key, no colon), every call started with empty
`opts` ends, and at its end (so in particular when it succeeds) `k` is absent from
the options map if the token `k` does not occur in the input, and `k` has the
value `"true"` if the loop arrives at a token `k`, that is, if `k` occurs at a
position not consumed as an argument of a preceding option. -/
theorem C10_flag_presence (valids : Str) (defs : List OptDef) (k : Str)
    (tokens : List Str) (params0 : List Str)
    (hw : words valids = defs.map OptDef.render)
    (hwf : ∀ d ∈ defs, d.wellFormed = true)
    (hnd : (defs.flatMap OptDef.keys).Nodup)
    (hflag : (⟨[k], none⟩ : OptDef) ∈ defs) :
    ∃ r, getOpts valids tokens Opts.empty params0 = some r ∧
      (k ∉ tokens → r.opts k = none) ∧
      (∀ post st,
        Reaches (compile valids).lookup tokens ⟨Opts.empty, params0, false⟩ (k :: post) st →
        r.opts k = some "true".toList) := by
  obtain ⟨hk, hkey⟩ := compile_flag hw hwf hnd hflag
  obtain ⟨r, hr⟩ := getOpts_terminates valids tokens Opts.empty params0
  refine ⟨r, hr, fun hnot => ?_, fun post st hreach => ?_⟩
  · refine run_opts_untouched _ k tokens _ (fun tok htok va hva hkk => ?_) r hr
    rw [hkey tok va hva hkk] at htok
    exact hnot htok
  · have h1 : run (compile valids).lookup tokens ⟨Opts.empty, params0, false⟩ = some r := hr
    rw [run_of_reaches hreach, run_next (iteration_flag post st hk)] at h1
    exact run_flag_stays _ k hk hkey post _ (Opts.set_same _ _ _) r h1

/-- C10, amended, at the format string `-x:1 -t` and the tokens `-t -x -t`. -/
theorem C10_flag_presence_witness :
    ∃ r, getOpts "-x:1 -t".toList ["-t".toList, "-x".toList, "-t".toList] Opts.empty []
        = some r ∧
      ("-t".toList ∉ ["-t".toList, "-x".toList, "-t".toList] → r.opts "-t".toList = none) ∧
      (∀ post st,
        Reaches (compile "-x:1 -t".toList).lookup ["-t".toList, "-x".toList, "-t".toList]
          ⟨Opts.empty, [], false⟩ ("-t".toList :: post) st →
        r.opts "-t".toList = some "true".toList) ∧
      r.opts "-t".toList = some "true".toList :=
  (C10_flag_presence "-x:1 -t".toList
    [⟨["-x".toList], some ("1".toList, none)⟩, ⟨["-t".toList], none⟩] "-t".toList
    ["-t".toList, "-x".toList, "-t".toList] [] (by decide) (by decide) (by decide)
    (by decide)).imp
    fun _ h => ⟨h.1, h.2.1, h.2.2, h.2.2 _ _ (Reaches.here _ _)⟩

/-- C11. Options not expecting arguments are assigned `"true"`: for a format string
without a colon (every option then has required and optional count 0), every call
started with empty `opts` ends, and when it returns the empty string the keys of
the options map are exactly the canonical keys of the tokens that are recognized
aliases, each with the value `"true"`. -/
theorem C11_flags_true (valids : Str) (tokens : List Str) (params0 : List Str)
    (hcolon : ':' ∉ valids) :
    ∃ r, getOpts valids tokens Opts.empty params0 = some r ∧
      (r.msg? = some [] → ∀ x,
        (r.opts x ≠ none ↔
          ∃ t ∈ tokens, ∃ va, (compile valids).lookup t = some va ∧ va.key = x) ∧
        (r.opts x ≠ none → r.opts x = some "true".toList)) := by
  obtain ⟨r, hr⟩ := getOpts_terminates valids tokens Opts.empty params0
  refine ⟨r, hr, fun hmsg x => ?_⟩
  obtain ⟨ha, hb⟩ := run_all_flags (compile valids).lookup
    (fun a va h => compile_colon_free hcolon h) tokens _ r hr hmsg x
  by_cases hx : ∃ t ∈ tokens, ∃ va, (compile valids).lookup t = some va ∧ va.key = x
  · exact ⟨⟨fun _ => hx, fun _ => by rw [ha hx]; simp⟩, fun _ => ha hx⟩
  · have hnone : r.opts x = none := hb hx
    exact ⟨⟨fun h => absurd hnone h, fun h => absurd h hx⟩, fun h => absurd hnone h⟩

/-- C11 at the format string `-a,--all -b` and the tokens `--all x -b`: the call
succeeds and `-a` has the value `"true"`. -/
theorem C11_flags_true_witness :
    ∃ r, getOpts "-a,--all -b".toList ["--all".toList, "x".toList, "-b".toList] Opts.empty []
        = some r ∧
      (r.msg? = some [] → ∀ x,
        (r.opts x ≠ none ↔
          ∃ t ∈ ["--all".toList, "x".toList, "-b".toList],
            ∃ va, (compile "-a,--all -b".toList).lookup t = some va ∧ va.key = x) ∧
        (r.opts x ≠ none → r.opts x = some "true".toList)) ∧
      r.msg? = some [] ∧ r.params = ["x".toList] := by
  obtain ⟨r, hr, h⟩ := C11_flags_true "-a,--all -b".toList
    ["--all".toList, "x".toList, "-b".toList] [] (by decide)
  have hr2 : getOpts "-a,--all -b".toList ["--all".toList, "x".toList, "-b".toList]
      Opts.empty [] = some (.returned [] _ ["x".toList]) := rfl
  rw [hr2] at hr
  cases hr
  exact ⟨_, hr2, h, rfl, rfl⟩

/-- C12. Option recognition takes priority over positional classification: started
with empty `params`, every call ends and none of the tokens it leaves in `params`
is a recognized alias; and the iteration at a recognized alias, with or without a
leading dash and whatever the state, leaves `params` as it is and gives the
canonical key an entry in the options map. -/
theorem C12_recognition_priority (valids : Str) (tokens : List Str) (opts0 : Opts) :
    (∃ r, getOpts valids tokens opts0 [] = some r ∧
      ∀ x ∈ r.params, (compile valids).lookup x = none) ∧
    (∀ t post st va, (compile valids).lookup t = some va →
      (∀ rest1 st1, iteration (compile valids).lookup t post st = .next rest1 st1 →
        st1.params = st.params ∧ st1.opts va.key ≠ none) ∧
      (∀ r, iteration (compile valids).lookup t post st = .done r →
        r.params = st.params ∧ r.opts va.key ≠ none)) := by
  constructor
  · obtain ⟨r, hr⟩ := getOpts_terminates valids tokens opts0 []
    obtain ⟨l, hl, hun⟩ := run_params_unrecognized _ _ _ r hr
    refine ⟨r, hr, fun x hx => hun x ?_⟩
    rw [hl] at hx
    simpa using hx
  · intro t post st va hV
    obtain ⟨c, r1, _, h1 | ⟨u, h1⟩ | h1⟩ := iteration_recognized post st hV
    · refine ⟨fun rest1 st1 h => ?_, fun r h => ?_⟩
      · rw [h1] at h; cases h
        exact ⟨rfl, by simp [Opts.set]⟩
      · rw [h1] at h; cases h
    · refine ⟨fun rest1 st1 h => ?_, fun r h => ?_⟩
      · rw [h1] at h; cases h
      · rw [h1] at h; cases h
        exact ⟨rfl, by simp [Result.opts, Opts.set]⟩
    · refine ⟨fun rest1 st1 h => ?_, fun r h => ?_⟩
      · rw [h1] at h; cases h
      · rw [h1] at h; cases h
        exact ⟨rfl, by simp [Result.opts, Opts.set]⟩

/-- C13. Pure positional input passes through unchanged: when no token is a
recognized key and no token starts with `-`, the call started with empty containers
returns the empty string, leaves `opts` empty and sets `params` to the tokens. -/
theorem C13_positional_passthrough (valids : Str) (tokens : List Str)
    (h : ∀ t ∈ tokens, (compile valids).lookup t = none ∧ t.head? ≠ some '-') :
    getOpts valids tokens Opts.empty [] = some (.returned [] Opts.empty tokens) := by
  have hreach := reaches_positional (compile valids).lookup tokens [] ⟨Opts.empty, [], false⟩ h
  rw [List.append_nil] at hreach
  show run (compile valids).lookup tokens ⟨Opts.empty, [], false⟩ = _
  rw [run_of_reaches hreach, run_nil]
  rfl

/-- C13 at the empty format string and the tokens `a b`. -/
theorem C13_positional_passthrough_witness :
    getOpts [] ["a".toList, "b".toList] Opts.empty []
      = some (.returned [] Opts.empty ["a".toList, "b".toList]) :=
  C13_positional_passthrough [] ["a".toList, "b".toList] (by decide)

/-- C16 as stated fails. With the format string `-x:1:1` (required 1, optional 1)
and the tokens `-x a b --`, the candidate `b` is followed by `--` and is consumed
all the same: the value of `-x` is `a b `. -/
theorem C16_candidate_before_separator_is_consumed :
    ∃ o, getOpts "-x:1:1".toList ["-x".toList, "a".toList, "b".toList, "--".toList]
        Opts.empty [] = some (.returned [] o []) ∧
      o "-x".toList = some "a b ".toList :=
  ⟨_, rfl, by decide⟩

/-- C16, amended. While an option is consuming optional arguments, a candidate token
is not consumed when the candidate itself is the separator `--`: the
optional-argument loop stops in front of `--` whatever the remaining optional count,
and an option that finds `--` right after its required arguments `args` takes
`args` only, the loop arriving next at that `--`. -/
theorem C16_separator_not_consumed (valids : Str) (k c : Str) (r o : Int)
    (args rest : List Str)
    (hV : (compile valids).lookup k = some ⟨r, o, c⟩) (hlen : (args.length : Int) = r) :
    (∀ key opt cur opts, takeOptional (compile valids).lookup key opt cur (dashDash :: rest) opts
        = .ok (dashDash :: rest) opts) ∧
    (∀ tokens opts0 params0 st,
      Reaches (compile valids).lookup tokens ⟨opts0, params0, false⟩
        (k :: (args ++ dashDash :: rest)) st →
      Reaches (compile valids).lookup tokens ⟨opts0, params0, false⟩ (dashDash :: rest)
        ⟨st.opts.set c (optionValue ⟨r, o, c⟩ args), st.params, st.endOfArgs⟩) := by
  constructor
  · intro key opt cur opts
    simp [takeOptional]
  · intro tokens opts0 params0 st hreach
    rcases iteration_exact args (dashDash :: rest) st hV hlen with ⟨hp, _⟩ | ⟨_, hit⟩
    · have := hp.2.2.1
      rw [optionalArgs_separator] at this
      cases this
    · rw [optionalArgs_separator] at hit
      simp only [List.append_nil, List.length_nil, List.drop_zero] at hit
      exact reaches_trans hreach (Reaches.step hit (Reaches.here _ _))

/-- C16, amended, at the format string `-x:1:1` and the tokens `-x a -- b`. -/
theorem C16_separator_not_consumed_witness :
    ((∀ key opt cur opts,
      takeOptional (compile "-x:1:1".toList).lookup key opt cur (dashDash :: ["b".toList]) opts
        = .ok (dashDash :: ["b".toList]) opts) ∧
    (∀ tokens opts0 params0 st,
      Reaches (compile "-x:1:1".toList).lookup tokens ⟨opts0, params0, false⟩
        ("-x".toList :: (["a".toList] ++ dashDash :: ["b".toList])) st →
      Reaches (compile "-x:1:1".toList).lookup tokens ⟨opts0, params0, false⟩
        (dashDash :: ["b".toList])
        ⟨st.opts.set "-x".toList (optionValue ⟨1, 1, "-x".toList⟩ ["a".toList]),
          st.params, st.endOfArgs⟩)) ∧
    (∃ o, getOpts "-x:1:1".toList ["-x".toList, "a".toList, "--".toList, "b".toList]
        Opts.empty [] = some (.returned [] o ["b".toList]) ∧
      o "-x".toList = some "a ".toList) :=
  ⟨C16_separator_not_consumed "-x:1:1".toList "-x".toList "-x".toList 1 1 ["a".toList]
    ["b".toList] (by decide) (by decide), _, rfl, by decide⟩

/-- C20. A repeated option keeps only its last occurrence: if the loop arrives at a
token `t` resolving to the record `va`, the iteration at `t` consumes the tokens
`consumed` and goes on, and no token at which the loop arrives later resolves to
the canonical key of `va`, then the call ends with the entry of that key equal to
the value built by this occurrence alone, `"true"` for an option without arguments
and otherwise the tokens of `consumed` each followed by a space, whatever earlier
occurrences had stored. -/
theorem C20_last_occurrence_wins (valids : Str) (tokens : List Str) (opts0 : Opts)
    (params0 : List Str) (t : Str) (rest rest1 : List Str) (st st1 : St) (va : VArgs)
    (hreach : Reaches (compile valids).lookup tokens ⟨opts0, params0, false⟩ (t :: rest) st)
    (hV : (compile valids).lookup t = some va)
    (hit : iteration (compile valids).lookup t rest st = .next rest1 st1)
    (hlast : ∀ t1 r1 s1, Reaches (compile valids).lookup rest1 st1 (t1 :: r1) s1 →
      ∀ vb, (compile valids).lookup t1 = some vb → vb.key ≠ va.key) :
    ∃ r consumed, getOpts valids tokens opts0 params0 = some r ∧
      rest = consumed ++ rest1 ∧ r.opts va.key = some (optionValue va consumed) := by
  obtain ⟨r, hr⟩ := getOpts_terminates valids tokens opts0 params0
  have hr1 : run (compile valids).lookup rest1 st1 = some r := by
    have h1 : run (compile valids).lookup tokens ⟨opts0, params0, false⟩ = some r := hr
    rw [run_of_reaches hreach, run_next hit] at h1
    exact h1
  have hkeep := run_opts_untouched_reached _ va.key rest1 st1 hlast r hr1
  obtain ⟨consumed, rest2, hsplit, h1 | ⟨u, h1⟩ | h1⟩ := iteration_recognized rest st hV
  · rw [h1] at hit
    cases hit
    exact ⟨r, consumed, hr, hsplit, by rw [hkeep]; exact Opts.set_same _ _ _⟩
  · rw [h1] at hit; cases hit
  · rw [h1] at hit; cases hit

/-- C20 at the format string `-x:1` and the tokens `-x a -x b`: the value of `-x` at
the end is `b `, the argument `a` of the first occurrence is gone. -/
theorem C20_last_occurrence_wins_witness :
    (∃ r consumed, getOpts "-x:1".toList ["-x".toList, "a".toList, "-x".toList, "b".toList]
        Opts.empty [] = some r ∧
      ["b".toList] = consumed ++ [] ∧
      r.opts "-x".toList = some (optionValue ⟨1, 0, "-x".toList⟩ consumed)) ∧
    (∃ o, getOpts "-x:1".toList ["-x".toList, "a".toList, "-x".toList, "b".toList]
        Opts.empty [] = some (.returned [] o []) ∧ o "-x".toList = some "b ".toList) :=
  ⟨C20_last_occurrence_wins "-x:1".toList ["-x".toList, "a".toList, "-x".toList, "b".toList]
    Opts.empty [] "-x".toList ["b".toList] []
    ⟨(Opts.empty.set "-x".toList []).append "-x".toList ("a".toList ++ [' ']), [], false⟩
    ⟨(((Opts.empty.set "-x".toList []).append "-x".toList ("a".toList ++ [' '])).set
        "-x".toList []).append "-x".toList ("b".toList ++ [' ']), [], false⟩
    ⟨1, 0, "-x".toList⟩
    (Reaches.step (show iteration _ _ _ _ = Step.next ["-x".toList, "b".toList] _ from rfl)
      (Reaches.here _ _))
    (by decide) rfl (fun _ _ _ h => nomatch reaches_nil h),
    _, rfl, by decide⟩

theorem toDigitsCore_length_ge (b : Nat) :
    ∀ (f n : Nat) (ds : List Char), ds.length ≤ (Nat.toDigitsCore b f n ds).length := by
  intro f
  induction f with
  | zero => intro n ds; exact Nat.le_refl _
  | succ f ih =>
    intro n ds
    simp only [Nat.toDigitsCore]
    split
    · simp
    · exact Nat.le_trans (by simp) (ih _ _)

theorem toDigits_length_pos (n : Nat) : 1 ≤ (Nat.toDigits 10 n).length := by
  simp only [Nat.toDigits, Nat.toDigitsCore]
  split
  · simp
  · exact Nat.le_trans (by simp) (toDigitsCore_length_ge 10 _ _ _)

/-- On amounts that are not negative `toCurrency` writes the dollars, a point, and
the cents as exactly two digits. -/
theorem toCurrency_nonneg (dollars : Nat) (d1 d2 : Nat) (h1 : d1 < 10) (h2 : d2 < 10) :
    toCurrency ((100 * dollars + (10 * d1 + d2) : Nat) : Int)
      = Nat.toDigits 10 dollars ++ ['.', Nat.digitChar d1, Nat.digitChar d2] := by
  have hc : ∀ y : Nat, y < 100 →
      padZero 2 (showInt (y : Int)) = [Nat.digitChar (y / 10), Nat.digitChar (y % 10)] := by
    decide
  have hq : Int.tdiv ((100 * dollars + (10 * d1 + d2) : Nat) : Int) 100 = (dollars : Int) := by
    rw [Int.tdiv_eq_ediv (Int.ofNat_nonneg _) (by decide)]
    omega
  have hm : Int.tmod ((100 * dollars + (10 * d1 + d2) : Nat) : Int) 100
      = ((10 * d1 + d2 : Nat) : Int) := by
    rw [Int.tmod_eq_emod (Int.ofNat_nonneg _) (by decide)]
    omega
  have hd : padZero 1 (showInt (dollars : Int)) = Nat.toDigits 10 dollars := by
    have hlen := toDigits_length_pos dollars
    have hnn : ¬ ((dollars : Int) < 0) := by omega
    have h0 : 1 - (Nat.toDigits 10 dollars).length = 0 := by omega
    simp [padZero, showInt, hnn, h0]
  rw [toCurrency, hq, hm, hd, hc _ (by omega)]
  have e1 : (10 * d1 + d2) / 10 = d1 := by omega
  have e2 : (10 * d1 + d2) % 10 = d2 := by omega
  rw [e1, e2]

/-- C15 (the code at failing inputs). For negative amounts the output is not of the
form dollars, point, two digits: `toCurrency(-1234)` is `-12.-34` and
`toCurrency(-5)` is `0.-5`; the example of the doc comment, `toCurrency(1234)`, is
`12.34`. -/
theorem C15_toCurrency_negative :
    toCurrency (-1234) = "-12.-34".toList ∧ toCurrency (-5) = "0.-5".toList ∧
      toCurrency 1234 = "12.34".toList := by
  decide

/-- C18 as stated fails. With the format string `-x:-1` the record of `-x` has the
required count `-1`. -/
theorem C18_negative_count :
    words "-x:-1".toList
        = [(⟨["-x".toList], some ("-1".toList, none)⟩ : OptDef)].map OptDef.render ∧
      (compile "-x:-1".toList).lookup "-x".toList = some ⟨-1, 0, "-x".toList⟩ := by
  decide

/-- C18, amended. In a format string of the documented shape, whatever text the
REQUIRED and OPTIONAL fields hold, every record of the compiled table has as its
counts what `atoi` makes of the fields of a definition listing the key: a count is
not negative when its field holds no minus sign and has at most nine characters,
and it is 0 when its field holds no digit (in particular when the field is
missing). -/
theorem C18_counts (valids : Str) (defs : List OptDef)
    (hw : words valids = defs.map OptDef.render)
    (hs : ∀ d ∈ defs, d.shaped = true)
    (a : Str) (va : VArgs) (h : (compile valids).lookup a = some va) :
    ∃ d ∈ defs, a ∈ d.keys ∧
      va.required = atoi d.requiredText ∧ va.optional = atoi d.optionalText ∧
      ('-' ∉ d.requiredText → d.requiredText.length ≤ 9 → 0 ≤ va.required) ∧
      ('-' ∉ d.optionalText → d.optionalText.length ≤ 9 → 0 ≤ va.optional) ∧
      ((∀ c ∈ d.requiredText, c.isDigit = false) → va.required = 0) ∧
      ((∀ c ∈ d.optionalText, c.isDigit = false) → va.optional = 0) := by
  obtain ⟨d, hd, hk, rfl⟩ := compile_lookup_shaped hw hs h
  exact ⟨d, hd, hk, rfl, rfl, fun h1 h2 => atoi_nonneg h1 h2, fun h1 h2 => atoi_nonneg h1 h2,
    fun h1 => atoi_no_digit h1, fun h1 => atoi_no_digit h1⟩

/-- C18, amended, at the format string `-x:3:abc -y:+2` and the key `-x`. -/
theorem C18_counts_witness :
    ∃ d ∈ [(⟨["-x".toList], some ("3".toList, some "abc".toList)⟩ : OptDef),
        ⟨["-y".toList], some ("+2".toList, none)⟩],
      "-x".toList ∈ d.keys ∧
      (3 : Int) = atoi d.requiredText ∧ (0 : Int) = atoi d.optionalText ∧
      ('-' ∉ d.requiredText → d.requiredText.length ≤ 9 → 0 ≤ (3 : Int)) ∧
      ('-' ∉ d.optionalText → d.optionalText.length ≤ 9 → 0 ≤ (0 : Int)) ∧
      ((∀ c ∈ d.requiredText, c.isDigit = false) → (3 : Int) = 0) ∧
      ((∀ c ∈ d.optionalText, c.isDigit = false) → (0 : Int) = 0) :=
  C18_counts "-x:3:abc -y:+2".toList
    [⟨["-x".toList], some ("3".toList, some "abc".toList)⟩,
      ⟨["-y".toList], some ("+2".toList, none)⟩]
    (by decide) (by decide) "-x".toList ⟨3, 0, "-x".toList⟩ (by decide)

end Utils
